import Mathlib

/-
Verification development for the event-list materialization and oscillator-state
resolution pipeline of the laboneq compiler
(src/python/laboneq/compiler/seqc/ir_to_event_list.py,
 src/python/laboneq/compiler/seqc/passes/oscillator_parameters.py,
 src/python/laboneq/compiler/scheduler/schedule_data.py).

Modelling conventions:
 * Python floats are modelled as exact rationals (ℚ); the float constant
   `2.0 * math.pi` appearing in the phase formula is an explicit parameter
   `twoPi : ℚ` of the phase pass, since no claim depends on its value.
 * An event dict is modelled as a record.  A field that the code may delete or
   that may be absent is an `Option`; `oscillator_phase` is doubly optional
   because the code can store the value `None` ("null for HW oscillators") in a
   present field.  The "signal" entry (a plain id or a set of ids) is the list
   `signals`; play/delay/acquire events carry exactly one id, set-frequency
   events may carry several.
 * Python raising (KeyError on a missing "id"/"chain_element_id" entry,
   AssertionError from `assert`, AttributeError from `None.is_hardware`)
   is modelled by `Except PyError`.
 * In-place mutation of event dicts during a sweep is modelled by tagging each
   event with its position in the input list (`List.enum`), threading the
   mutated copies through the sweep, and writing them back by position;
   position plays the role of Python object identity.
 * Python's stable `sorted(key=(time, priority))` is modelled by
   `List.insertionSort` with the non-strict lexicographic preorder on
   (time, priority); insertion sort is stable, and a stable sort of a list
   under a total preorder is unique, so this is the same list `sorted` builds.
 * The signal → oscillator and signal → device maps are total functions
   (the spec's interface contract: "assumed total over all signals referenced
   by any event"); `oscMap s = none` models a signal whose `oscillator`
   attribute is Python `None`.  `is_qa_dev s` is the composite
   `DeviceType.from_device_info_type(device_map[s].device_type).is_qa_device`.
-/

inductive EventType where
  | PLAY_START
  | ACQUIRE_START
  | DELAY_START
  | SET_OSCILLATOR_FREQUENCY_START
  | SET_OSCILLATOR_FREQUENCY_END
  | INITIAL_OSCILLATOR_FREQUENCY
  | RESET_SW_OSCILLATOR_PHASE
  | INITIAL_RESET_HW_OSCILLATOR_PHASE
  | OTHER_EVENT
deriving DecidableEq, Repr

structure Event where
  id : Option Nat := none
  event_type : EventType
  time : ℚ := 0
  signals : List String := []
  value : ℚ := 0
  chain_element_id : Option Nat := none
  increment_oscillator_phase : Option ℚ := none
  set_oscillator_phase : Option ℚ := none
  oscillator_frequency : Option ℚ := none
  oscillator_phase : Option (Option ℚ) := none
  device_id : Option String := none
  duration : Option ℚ := none
deriving DecidableEq, Repr

structure OscillatorInfo where
  is_hardware : Bool
deriving DecidableEq, Repr

inductive PyError where
  | keyError
  | assertionError
  | attributeError
deriving DecidableEq, Repr

/-- `oscillator_info.is_hardware if oscillator_info else False` -/
def isHwOsc (oscMap : String → Option OscillatorInfo) (s : String) : Bool :=
  match oscMap s with
  | some o => o.is_hardware
  | none => false

/-- The single signal id carried by a play/delay/acquire event
(`signal_id = event["signal"]`). -/
def sigOf (e : Event) : String := (e.signals.head?).getD ""

/-- Pointwise update of a map modelling a Python dict entry assignment. -/
def updOpt (m : String → Option ℚ) (s : String) (v : ℚ) : String → Option ℚ :=
  fun x => if x = s then some v else m x

/-- Index lookup used to write mutated events back to their list position. -/
def lookupIdx (i : Nat) : List (Nat × Event) → Option Event
  | [] => none
  | je :: rest => if i = je.1 then some je.2 else lookupIdx i rest

/-! ## Frequency resolution sweep (`_calculate_osc_freq`, lines 128-165) -/

/-- The `priority_map` of `_calculate_osc_freq` (only ever applied to selected
events; the catch-all branch is unreachable after the selection filter). -/
def freq_priority : EventType → Int
  | .PLAY_START => 0
  | .ACQUIRE_START => 0
  | .SET_OSCILLATOR_FREQUENCY_START => -15
  | .INITIAL_OSCILLATOR_FREQUENCY => -30
  | _ => 0

/-- `e["event_type"] in priority_map` for the frequency sweep. -/
def freqSelect : EventType → Bool
  | .PLAY_START => true
  | .ACQUIRE_START => true
  | .SET_OSCILLATOR_FREQUENCY_START => true
  | .INITIAL_OSCILLATOR_FREQUENCY => true
  | _ => false

/-- Non-strict lexicographic sort key order `(time, priority)` of the
frequency sweep. -/
def freqLe (a b : Nat × Event) : Prop :=
  a.2.time < b.2.time ∨
    (a.2.time = b.2.time ∧ freq_priority a.2.event_type ≤ freq_priority b.2.event_type)

instance : DecidableRel freqLe := fun a b => by unfold freqLe; infer_instance

instance : IsTotal (Nat × Event) freqLe where
  total a b := by
    unfold freqLe
    rcases lt_trichotomy a.2.time b.2.time with h | h | h
    · exact Or.inl (Or.inl h)
    · rcases le_total (freq_priority a.2.event_type) (freq_priority b.2.event_type) with hp | hp
      · exact Or.inl (Or.inr ⟨h, hp⟩)
      · exact Or.inr (Or.inr ⟨h.symm, hp⟩)
    · exact Or.inr (Or.inl h)

instance : IsTrans (Nat × Event) freqLe where
  trans a b c hab hbc := by
    unfold freqLe at *
    rcases hab with h1 | ⟨h1, p1⟩
    · rcases hbc with h2 | ⟨h2, _⟩
      · exact Or.inl (h1.trans h2)
      · exact Or.inl (h2 ▸ h1)
    · rcases hbc with h2 | ⟨h2, p2⟩
      · exact Or.inl (h1 ▸ h2)
      · exact Or.inr ⟨h1.trans h2, le_trans p1 p2⟩

/-- `sorted_events` of `_calculate_osc_freq`: filter the enumerated (identity
tagged) events to the four selected kinds and stable-sort by (time, priority). -/
def freqSorted (evs : List Event) : List (Nat × Event) :=
  List.insertionSort freqLe (evs.enum.filter fun ie => freqSelect ie.2.event_type)

/-- Body of the inner `for signal_id in signals` loop of `_calculate_osc_freq`
(lines 149-161), acting on the running `current_frequency_map` and the
(possibly annotated) event. -/
def freqSigStep (oscMap : String → Option OscillatorInfo)
    (me : (String → Option ℚ) × Event) (s : String) : (String → Option ℚ) × Event :=
  let m := me.1
  let e := me.2
  if e.event_type = .SET_OSCILLATOR_FREQUENCY_START then
    (updOpt m s e.value, e)
  else if e.event_type = .INITIAL_OSCILLATOR_FREQUENCY ∧ ¬ isHwOsc oscMap s then
    (updOpt m s e.value, e)
  else if ¬ isHwOsc oscMap s then
    match m s with
    | some v => (m, { e with oscillator_frequency := some v })
    | none => (m, e)
  else (m, e)

/-- Processing of one sorted event by the frequency sweep. -/
def freqEventStep (oscMap : String → Option OscillatorInfo)
    (m : String → Option ℚ) (e : Event) : (String → Option ℚ) × Event :=
  e.signals.foldl (freqSigStep oscMap) (m, e)

/-- The `for event in sorted_events` loop of the frequency sweep, collecting
the mutated copies of the processed events together with their positions. -/
def freqRun (oscMap : String → Option OscillatorInfo) :
    List (Nat × Event) → (String → Option ℚ) → (String → Option ℚ) × List (Nat × Event)
  | [], m => (m, [])
  | ie :: rest, m =>
    let me := freqEventStep oscMap m ie.2
    let r := freqRun oscMap rest me.1
    (r.1, (ie.1, me.2) :: r.2)

/-- The annotation sweep of `_calculate_osc_freq` (lines 131-161): the input
event list with the in-place mutations of the sorted selected events applied. -/
def calculate_osc_freq_sweep (oscMap : String → Option OscillatorInfo)
    (evs : List Event) : List Event :=
  let mods := (freqRun oscMap (freqSorted evs) (fun _ => none)).2
  evs.enum.map fun ie => (lookupIdx ie.1 mods).getD ie.2

/-! ## Dead-event filter (`_remove_handled_oscillator_events`, lines 96-125) -/

/-- `handled_event_id.add(n)` (Python set insertion on a list model). -/
def addHandled (n : Nat) (acc : List Nat) : List Nat :=
  if n ∈ acc then acc else n :: acc

/-- Body of the first marking loop (lines 100-113): mark a
SET_OSCILLATOR_FREQUENCY_START targeting at least one non-hardware oscillator,
and every INITIAL_OSCILLATOR_FREQUENCY.  Reading the "id" entry of an event
that does not have one raises KeyError.  The source's two sequential `if`s
have mutually exclusive conditions (an event type cannot be both kinds), so
they are modelled as one conditional chain. -/
def markStart (oscMap : String → Option OscillatorInfo)
    (acc : List Nat) (e : Event) : Except PyError (List Nat) :=
  if e.event_type = .SET_OSCILLATOR_FREQUENCY_START ∧
      e.signals.any (fun s => ¬ isHwOsc oscMap s) then
    match e.id with
    | some n => .ok (addHandled n acc)
    | none => .error .keyError
  else if e.event_type = .INITIAL_OSCILLATOR_FREQUENCY then
    match e.id with
    | some n => .ok (addHandled n acc)
    | none => .error .keyError
  else .ok acc

def markStartLoop (oscMap : String → Option OscillatorInfo) :
    List Event → List Nat → Except PyError (List Nat)
  | [], acc => .ok acc
  | e :: rest, acc =>
    match markStart oscMap acc e with
    | .error err => .error err
    | .ok acc1 => markStartLoop oscMap rest acc1

/-- Body of the second loop (lines 115-118): an END event whose
"chain_element_id" is already marked is marked as well. -/
def markEnd (acc : List Nat) (e : Event) : Except PyError (List Nat) :=
  if e.event_type = .SET_OSCILLATOR_FREQUENCY_END then
    match e.chain_element_id with
    | none => .error .keyError
    | some c =>
      if c ∈ acc then
        match e.id with
        | some n => .ok (addHandled n acc)
        | none => .error .keyError
      else .ok acc
  else .ok acc

def markEndLoop : List Event → List Nat → Except PyError (List Nat)
  | [], acc => .ok acc
  | e :: rest, acc =>
    match markEnd acc e with
    | .error err => .error err
    | .ok acc1 => markEndLoop rest acc1

/-- The final comprehension (lines 121-123): keep the events whose id is not
marked; it reads the "id" entry of every event unconditionally. -/
def filterHandled (h : List Nat) : List Event → Except PyError (List Event)
  | [] => .ok []
  | e :: rest =>
    match e.id with
    | none => .error .keyError
    | some n =>
      match filterHandled h rest with
      | .error err => .error err
      | .ok tail => .ok (if n ∈ h then tail else e :: tail)

/-- `_remove_handled_oscillator_events`. -/
def remove_handled_oscillator_events (oscMap : String → Option OscillatorInfo)
    (evs : List Event) : Except PyError (List Event) :=
  match markStartLoop oscMap evs [] with
  | .error err => .error err
  | .ok h1 =>
    match markEndLoop evs h1 with
    | .error err => .error err
    | .ok h2 => filterHandled h2 evs

/-- `_calculate_osc_freq`: the annotation sweep followed by the dead-event
filter (which runs on the same, in-place mutated, event list). -/
def calculate_osc_freq (oscMap : String → Option OscillatorInfo)
    (evs : List Event) : Except PyError (List Event) :=
  remove_handled_oscillator_events oscMap (calculate_osc_freq_sweep oscMap evs)

/-! ## Phase resolution pass (`_calculate_osc_phase`, lines 15-93) -/

/-- Running state of `_calculate_osc_phase`.  `oscillator_phase_cumulative`
and `oscillator_phase_sets` are Python dicts read with `.get(s, 0.0)` (and, for
the cumulative map, zero-initialized before incrementing, and reset by zeroing
all present keys), so a total map with default 0 has the same semantics. -/
structure PhaseState where
  phase_reset_time : ℚ
  oscillator_phase_cumulative : String → ℚ
  oscillator_phase_sets : String → ℚ

def initPhaseState : PhaseState :=
  { phase_reset_time := 0
    oscillator_phase_cumulative := fun _ => 0
    oscillator_phase_sets := fun _ => 0 }

def updQ (m : String → ℚ) (s : String) (v : ℚ) : String → ℚ :=
  fun x => if x = s then v else m x

/-- `priority_map` of `_calculate_osc_phase`. -/
def phase_priority : EventType → Int
  | .PLAY_START => 0
  | .DELAY_START => 0
  | .ACQUIRE_START => 0
  | .RESET_SW_OSCILLATOR_PHASE => -15
  | _ => 0

def phaseSelect : EventType → Bool
  | .PLAY_START => true
  | .DELAY_START => true
  | .ACQUIRE_START => true
  | .RESET_SW_OSCILLATOR_PHASE => true
  | _ => false

def phaseLe (a b : Nat × Event) : Prop :=
  a.2.time < b.2.time ∨
    (a.2.time = b.2.time ∧ phase_priority a.2.event_type ≤ phase_priority b.2.event_type)

instance : DecidableRel phaseLe := fun a b => by unfold phaseLe; infer_instance

instance : IsTotal (Nat × Event) phaseLe where
  total a b := by
    unfold phaseLe
    rcases lt_trichotomy a.2.time b.2.time with h | h | h
    · exact Or.inl (Or.inl h)
    · rcases le_total (phase_priority a.2.event_type) (phase_priority b.2.event_type) with hp | hp
      · exact Or.inl (Or.inr ⟨h, hp⟩)
      · exact Or.inr (Or.inr ⟨h.symm, hp⟩)
    · exact Or.inr (Or.inl h)

instance : IsTrans (Nat × Event) phaseLe where
  trans a b c hab hbc := by
    unfold phaseLe at *
    rcases hab with h1 | ⟨h1, p1⟩
    · rcases hbc with h2 | ⟨h2, _⟩
      · exact Or.inl (h1.trans h2)
      · exact Or.inl (h2 ▸ h1)
    · rcases hbc with h2 | ⟨h2, p2⟩
      · exact Or.inl (h1 ▸ h2)
      · exact Or.inr ⟨h1.trans h2, le_trans p1 p2⟩

/-- `sorted_events` of `_calculate_osc_phase`. -/
def phaseSorted (evs : List Event) : List (Nat × Event) :=
  List.insertionSort phaseLe (evs.enum.filter fun ie => phaseSelect ie.2.event_type)

/-- Processing of one sorted event by `_calculate_osc_phase` (lines 51-93).
A RESET_SW_OSCILLATOR_PHASE records its time as the global reset time and
zeroes the cumulative map.  Otherwise the event's increment (if any, and if the
oscillator is not hardware) is folded into the cumulative map and the field
deleted; an absolute `set_oscillator_phase` asserts the oscillator is not
hardware (AttributeError when the signal has no oscillator at all, since the
code accesses `oscillator_info.is_hardware` directly), overwrites the
cumulative entry, records the set time, and the field is deleted; finally the
event's `oscillator_phase` is stamped: None for hardware oscillators, 0 for
software oscillators on QA devices, and the elapsed-time formula otherwise. -/
def phaseStep (oscMap : String → Option OscillatorInfo) (is_qa_dev : String → Bool)
    (twoPi : ℚ) (st : PhaseState) (ie : Nat × Event) :
    Except PyError (PhaseState × (Nat × Event)) :=
  let e := ie.2
  if e.event_type = .RESET_SW_OSCILLATOR_PHASE then
    .ok ({ st with phase_reset_time := e.time,
                   oscillator_phase_cumulative := fun _ => 0 }, ie)
  else
    let s := sigOf e
    let oscInfo := oscMap s
    let is_hw_osc := isHwOsc oscMap s
    let stp1 : PhaseState × Event :=
      match e.increment_oscillator_phase with
      | some phase_incr =>
        if is_hw_osc then (st, e)
        else
          ({ st with oscillator_phase_cumulative := updQ st.oscillator_phase_cumulative s (st.oscillator_phase_cumulative s + phase_incr) },
           { e with increment_oscillator_phase := none })
      | none => (st, e)
    let st1 := stp1.1
    let e1 := stp1.2
    let stp2 : Except PyError (PhaseState × Event) :=
      match e1.set_oscillator_phase with
      | some osc_phase =>
        match oscInfo with
        | none => .error .attributeError
        | some o =>
          if o.is_hardware then .error .assertionError
          else
            .ok ({ st1 with
                    oscillator_phase_cumulative :=
                      updQ st1.oscillator_phase_cumulative s osc_phase,
                    oscillator_phase_sets :=
                      updQ st1.oscillator_phase_sets s e1.time },
                 { e1 with set_oscillator_phase := none })
      | none => .ok (st1, e1)
    match stp2 with
    | .error err => .error err
    | .ok (st2, e2) =>
      if is_hw_osc then
        .ok (st2, (ie.1, { e2 with oscillator_phase := some none }))
      else if ¬ is_qa_dev s then
        .ok (st2, (ie.1, { e2 with oscillator_phase := some (some (
          (e2.time - max st2.phase_reset_time (st2.oscillator_phase_sets s)) * twoPi *
            (e2.oscillator_frequency.getD 0) + st2.oscillator_phase_cumulative s)) }))
      else
        .ok (st2, (ie.1, { e2 with oscillator_phase := some (some 0) }))

/-- The `for event in sorted_events` loop of `_calculate_osc_phase`. -/
def phaseRun (oscMap : String → Option OscillatorInfo) (is_qa_dev : String → Bool)
    (twoPi : ℚ) : List (Nat × Event) → PhaseState →
    Except PyError (PhaseState × List (Nat × Event))
  | [], st => .ok (st, [])
  | ie :: rest, st =>
    match phaseStep oscMap is_qa_dev twoPi st ie with
    | .error err => .error err
    | .ok (st1, ie1) =>
      match phaseRun oscMap is_qa_dev twoPi rest st1 with
      | .error err => .error err
      | .ok (st2, out) => .ok (st2, ie1 :: out)

/-- `_calculate_osc_phase`: the event list with the in-place mutations of the
sorted selected events applied (or the exception escaping the loop). -/
def calculate_osc_phase (oscMap : String → Option OscillatorInfo)
    (is_qa_dev : String → Bool) (twoPi : ℚ) (evs : List Event) :
    Except PyError (List Event) :=
  match phaseRun oscMap is_qa_dev twoPi (phaseSorted evs) initPhaseState with
  | .error err => .error err
  | .ok r => .ok (evs.enum.map fun ie => (lookupIdx ie.1 r.2).getD ie.2)

/-! ## `_start_events` and `generate_event_list_from_ir` (lines 168-222) -/

/-- The fields of `DeviceType` consumed here; a device whose info type has no
corresponding `DeviceType` (`ValueError` from `from_device_info_type`, caught
and skipped) is modelled as `device_type = none`. -/
structure DeviceTypeInfo where
  supports_reset_osc_phase : Bool
  reset_osc_duration : ℚ
deriving DecidableEq, Repr

structure DeviceInfo where
  uid : String
  device_type : Option DeviceTypeInfo
deriving DecidableEq, Repr

/-- `_start_events`: one INITIAL_RESET_HW_OSCILLATOR_PHASE event at time 0 per
device supporting hardware-oscillator phase reset; no "id" entry is written. -/
def start_events (devices : List DeviceInfo) : List Event :=
  devices.filterMap fun d =>
    match d.device_type with
    | none => none
    | some dt =>
      if dt.supports_reset_osc_phase then
        some { event_type := .INITIAL_RESET_HW_OSCILLATOR_PHASE,
               device_id := some d.uid,
               duration := some dt.reset_osc_duration,
               time := 0 }
      else none

/-- The id-assignment loop (lines 211-213): every event without an "id" entry
receives the next counter value. -/
def assignIds (k : Nat) : List Event → List Event
  | [] => []
  | e :: rest =>
    match e.id with
    | some _ => e :: assignIds k rest
    | none => { e with id := some k } :: assignIds (k + 1) rest

/-- `generate_event_list_from_ir`.  The recursive flattener
`generate_event_list` (event_list_generator.py, not part of the analyzed
sources) is abstracted by its output: `root = some rootEvents` models
`ir.root is not None` with `rootEvents` the flattened events (`idStart` the
counter state after flattening); `root = none` models an absent root, in which
case no id is ever assigned. -/
def generate_event_list_from_ir (oscMap : String → Option OscillatorInfo)
    (is_qa_dev : String → Bool) (twoPi : ℚ) (tinysample : ℚ)
    (devices : List DeviceInfo) (root : Option (List Event)) (idStart : Nat) :
    Except PyError (List Event) :=
  let event_list := start_events devices
  let event_list :=
    match root with
    | none => event_list
    | some rootEvents => assignIds idStart (event_list ++ rootEvents)
  let event_list := event_list.map fun e => { e with time := e.time * tinysample }
  match calculate_osc_freq oscMap event_list with
  | .error err => .error err
  | .ok l2 => calculate_osc_phase oscMap is_qa_dev twoPi l2

/-! ## Oscillator parameter extraction
(passes/oscillator_parameters.py: `_PickOscillatorParameters`,
`OscillatorParameters`, `calculate_oscillator_parameters`) -/

/-- The fields of an oscillator consumed by the extraction pass. -/
structure OscParamInfo where
  is_hardware : Bool
  signals : List String
deriving DecidableEq, Repr

/-- IR interval nodes as consumed by the extraction pass: the two
frequency-defining leaf kinds, and every other node reduced to its children
(offset, child) as yielded by `iter_children()`; `initial` distinguishes
`InitialOscillatorFrequencyIR` from `SetOscillatorFrequencyIR` (both visitors
act identically). -/
inductive IRNode where
  | setFreq (initial : Bool) (oscillators : List OscParamInfo) (values : List ℚ)
  | container (children : List (Int × IRNode))

/-- Body of `visit_SetOscillatorFrequencyIR` / `visit_InitialOscillatorFrequencyIR`:
for every (oscillator, value) pair, skip hardware oscillators, and append
`(signal, absolute start, value)` for each signal of the oscillator. -/
def pairObs (oscillators : List OscParamInfo) (values : List ℚ) (start : Int)
    (acc : List (String × Int × ℚ)) : List (String × Int × ℚ) :=
  (oscillators.zip values).foldl (fun acc2 ov =>
    if ov.1.is_hardware then acc2
    else acc2 ++ ov.1.signals.map (fun s => (s, start, ov.2))) acc

/-- The traversal of `_PickOscillatorParameters.run`/`visit`/`generic_visit`,
accumulating absolute start times top-down and collecting the observations in
visit order. -/
def nodeObservations (n : IRNode) (start : Int) : List (String × Int × ℚ) :=
  match n with
  | .setFreq _ oscs vals => pairObs oscs vals start []
  | .container children =>
    children.attach.foldl (fun acc c =>
      acc ++ nodeObservations c.1.2 (start + c.1.1)) []
termination_by sizeOf n
decreasing_by
  have h := List.sizeOf_lt_of_mem c.2
  obtain ⟨⟨a, b⟩, hc⟩ := c
  simp only [IRNode.container.sizeOf_spec, Prod.mk.sizeOf_spec] at h ⊢
  omega

/-- The per-signal observation list (the entry of the `defaultdict` keyed by
the signal, in append order). -/
def obsOf (tree : IRNode) (s : String) : List (Int × ℚ) :=
  (nodeObservations tree 0).filterMap fun o => if o.1 = s then some o.2 else none

/-- Time order used by `sorted(v, key=lambda x: x[0])`. -/
def serLe (p q : Int × ℚ) : Prop := p.1 ≤ q.1

instance : DecidableRel serLe := fun p q => by unfold serLe; infer_instance

instance : IsTotal (Int × ℚ) serLe where
  total p q := le_total p.1 q.1

instance : IsTrans (Int × ℚ) serLe where
  trans _ _ _ h1 h2 := le_trans h1 h2

/-- The dict comprehension `{time: freq for time, freq in sorted(v)}`: among
entries with equal time (adjacent after the stable sort) the last assignment
wins. -/
def dedupKeepLast : List (Int × ℚ) → List (Int × ℚ)
  | [] => []
  | [p] => [p]
  | p :: q :: rest =>
    if p.1 = q.1 then dedupKeepLast (q :: rest) else p :: dedupKeepLast (q :: rest)

/-- The sorted key→value structure `NearestDict(...)` is built on. -/
def buildSeries (raw : List (Int × ℚ)) : List (Int × ℚ) :=
  dedupKeepLast (List.insertionSort serLe raw)

/-- `NearestDict` lookup with `NEAREST_PREV` rounding on an ascending series:
the value at the largest key that is ≤ the query time (none when every key is
larger, where the real class would raise — the caller guards this case). -/
def nearestPrev (t : ℚ) : List (Int × ℚ) → Option ℚ
  | [] => none
  | p :: rest =>
    if (p.1 : ℚ) ≤ t then
      match nearestPrev t rest with
      | some w => some w
      | none => some p.2
    else none

/-- `OscillatorParameters.freq_at` for the artifact extracted from `tree`
(`calculate_oscillator_parameters` followed by `freq_at`): a signal that was
never recorded is missing from `self._mins`, raising KeyError; a query before
the precomputed minimum returns None; otherwise the nearest-previous lookup. -/
def freq_at (tree : IRNode) (s : String) (t : ℚ) : Except PyError (Option ℚ) :=
  match buildSeries (obsOf tree s) with
  | [] => .error .keyError
  | p :: rest =>
    if t < (p.1 : ℚ) then .ok none
    else .ok (nearestPrev t (p :: rest))

/-- Spec-side query function, written from the claim's words: scan the raw
per-signal observation list in write order and keep the entry last written at
the nearest recorded timestamp preceding-or-equal to the query time
(later writes win ties). -/
def specLastWrite (t : ℚ) : List (Int × ℚ) → Option (Int × ℚ)
  | [] => none
  | p :: rest =>
    if (p.1 : ℚ) ≤ t then
      match specLastWrite t rest with
      | some q => if p.1 ≤ q.1 then some q else some p
      | none => some p
    else specLastWrite t rest

/-- Deletion of the hardware (oscillator, value) pairs of a frequency-defining
node, used to state that only non-hardware observations are recorded. -/
def stripHwPairs (oscillators : List OscParamInfo) (values : List ℚ) :
    List OscParamInfo × List ℚ :=
  ((oscillators.zip values).filter fun ov => ¬ ov.1.is_hardware).unzip

/-! ## `ScheduleData` (scheduler/schedule_data.py) -/

/-- `ScheduleData`, polymorphic over the externally defined types of its
fields (`ExperimentDAO`, `SamplingRateTracker`, `PulseSchedule`, `SignalObj`,
and the warning callback+argument tuples). -/
structure ScheduleData (Dao Srt Pulse Sig Warn : Type) where
  experiment_dao : Dao
  sampling_rate_tracker : Srt
  acquire_pulses : List (String × List Pulse)
  signal_objects : List (String × Sig)
  combined_warnings : List (String × Warn)

/-- `ScheduleData.reset`: `self.acquire_pulses = {}`. -/
def ScheduleData.reset {Dao Srt Pulse Sig Warn : Type}
    (d : ScheduleData Dao Srt Pulse Sig Warn) : ScheduleData Dao Srt Pulse Sig Warn :=
  { d with acquire_pulses := [] }

/-! ## Specification-level running-state functions

These re-express the running state of the two sweeps as independent folds over
the already-processed sorted prefix, so that the per-event annotations can be
stated (and proved) without referring to the sweeps' own state threading. -/

/-- The `current_frequency_map` after the frequency sweep has processed the
tagged events `l` starting from map `m`. -/
def freqMapAfter (oscMap : String → Option OscillatorInfo)
    (l : List (Nat × Event)) (m : String → Option ℚ) : String → Option ℚ :=
  l.foldl (fun m2 ie => (freqEventStep oscMap m2 ie.2).1) m

/-- The last global phase-reset time after processing the events `l`
(0 when no reset occurred). -/
def specResetTime (l : List Event) : ℚ :=
  l.foldl (fun t e => if e.event_type = .RESET_SW_OSCILLATOR_PHASE then e.time else t) 0

/-- Signal `s`'s last absolute-set time after processing the events `l`
(0 when no absolute set occurred). -/
def specSetTime (s : String) (l : List Event) : ℚ :=
  l.foldl (fun t e =>
    if e.event_type ≠ .RESET_SW_OSCILLATOR_PHASE ∧ sigOf e = s ∧
        e.set_oscillator_phase.isSome then e.time else t) 0

/-- Signal `s`'s cumulative phase increment after processing the events `l`:
zeroed by every reset, overwritten by an absolute set, and increased by the
(software-oscillator) increments in between. -/
def specCum (oscMap : String → Option OscillatorInfo) (s : String)
    (l : List Event) : ℚ :=
  l.foldl (fun c e =>
    if e.event_type = .RESET_SW_OSCILLATOR_PHASE then 0
    else if sigOf e = s then
      let c1 :=
        match e.increment_oscillator_phase with
        | some incr => if isHwOsc oscMap s then c else c + incr
        | none => c
      match e.set_oscillator_phase with
      | some v => v
      | none => c1
    else c) 0

/-- The events of the phase-pass sorted selection strictly before position `k`. -/
def phaseUpTo (evs : List Event) (k : Nat) : List Event :=
  ((phaseSorted evs).take k).map Prod.snd

/-- A SET_OSCILLATOR_FREQUENCY_START event targeting at least one non-hardware
oscillator (the events marked by the first removal loop, besides
INITIAL_OSCILLATOR_FREQUENCY). -/
def markedStartB (oscMap : String → Option OscillatorInfo) (e : Event) : Bool :=
  e.event_type = .SET_OSCILLATOR_FREQUENCY_START &&
    e.signals.any (fun s => ¬ isHwOsc oscMap s)

/-- Specification of removability (claim C4): a marked START, any
INITIAL_OSCILLATOR_FREQUENCY, or an END whose chain-element back-reference is
the id of a marked START in the list. -/
def removableB (oscMap : String → Option OscillatorInfo) (evs : List Event)
    (e : Event) : Bool :=
  markedStartB oscMap e ||
  e.event_type = .INITIAL_OSCILLATOR_FREQUENCY ||
  (e.event_type = .SET_OSCILLATOR_FREQUENCY_END &&
    match e.chain_element_id with
    | some c => evs.any fun e2 => markedStartB oscMap e2 && e2.id = some c
    | none => false)

/-! ## Concrete example inputs used by the witnesses -/

/-- A signal map sending every signal to a software oscillator. -/
def swOscMap : String → Option OscillatorInfo := fun _ => some ⟨false⟩

/-- A signal map sending every signal to a hardware oscillator. -/
def hwOscMap : String → Option OscillatorInfo := fun _ => some ⟨true⟩

/-- No device is QA-class. -/
def noQaDev : String → Bool := fun _ => false

def emptyFreqMap : String → Option ℚ := fun _ => none

def exPlay : Event := { event_type := .PLAY_START, time := 1, signals := ["a"] }

def exSet : Event :=
  { event_type := .SET_OSCILLATOR_FREQUENCY_START, time := 1, signals := ["a"], value := 7 }

def exInitial : Event :=
  { event_type := .INITIAL_OSCILLATOR_FREQUENCY, time := 0, signals := ["a"], value := 3 }

def exPlayF : Event :=
  { event_type := .PLAY_START, time := 2, signals := ["a"], oscillator_frequency := some 3 }

def exReset : Event := { event_type := .RESET_SW_OSCILLATOR_PHASE, time := 1 }

def exSetId : Event :=
  { id := some 0, event_type := .SET_OSCILLATOR_FREQUENCY_START, time := 0,
    signals := ["a"], value := 5 }

def exEndId : Event :=
  { id := some 1, event_type := .SET_OSCILLATOR_FREQUENCY_END, time := 1,
    signals := ["a"], chain_element_id := some 0 }

def exPlayId : Event :=
  { id := some 2, event_type := .PLAY_START, time := 1, signals := ["a"] }

def exSetPhase : Event :=
  { event_type := .PLAY_START, time := 1, signals := ["a"],
    set_oscillator_phase := some 2 }

def exTree : IRNode := .setFreq true [⟨false, ["a"]⟩] [5]

def exDevice : DeviceInfo := { uid := "dev", device_type := some ⟨true, 80⟩ }

/-- The running-state update performed by `phaseStep` on a non-reset event
(absorbing the increment, then the absolute set; the fatal hardware-set branch
never returns a state). -/
def phaseStateUpd (oscMap : String → Option OscillatorInfo) (st : PhaseState)
    (e : Event) : PhaseState :=
  let s := sigOf e
  let st1 :=
    match e.increment_oscillator_phase with
    | some incr =>
      if isHwOsc oscMap s then st
      else { st with oscillator_phase_cumulative := updQ st.oscillator_phase_cumulative s (st.oscillator_phase_cumulative s + incr) }
    | none => st
  match e.set_oscillator_phase with
  | some v => { st1 with oscillator_phase_cumulative := updQ st1.oscillator_phase_cumulative s v, oscillator_phase_sets := updQ st1.oscillator_phase_sets s e.time }
  | none => st1

/-! ## Basic lemmas about the frequency sweep -/

theorem freqSigStep_cases (oscMap : String → Option OscillatorInfo)
    (m : String → Option ℚ) (e : Event) (s : String) :
    freqSigStep oscMap (m, e) s =
      if e.event_type = .SET_OSCILLATOR_FREQUENCY_START ∨
          (e.event_type = .INITIAL_OSCILLATOR_FREQUENCY ∧ isHwOsc oscMap s = false)
      then (updOpt m s e.value, e)
      else if isHwOsc oscMap s = false then
        match m s with
        | some v => (m, { e with oscillator_frequency := some v })
        | none => (m, e)
      else (m, e) := by
  unfold freqSigStep
  by_cases h1 : e.event_type = .SET_OSCILLATOR_FREQUENCY_START
  · rw [if_pos h1, if_pos (Or.inl h1)]
  · rw [if_neg h1]
    by_cases h2 : e.event_type = .INITIAL_OSCILLATOR_FREQUENCY
    · by_cases hw : isHwOsc oscMap s
      · have hc : ¬ (e.event_type = .INITIAL_OSCILLATOR_FREQUENCY ∧ ¬ isHwOsc oscMap s = true) :=
          fun h => h.2 hw
        have hc2 : ¬ (e.event_type = .SET_OSCILLATOR_FREQUENCY_START ∨
            (e.event_type = .INITIAL_OSCILLATOR_FREQUENCY ∧ isHwOsc oscMap s = false)) := by
          rintro (h | h)
          · exact h1 h
          · simp [hw] at h
        have hw2 : ¬ isHwOsc oscMap s = false := by simp [hw]
        rw [if_neg hc, if_neg (by simpa using hw), if_neg hc2, if_neg hw2]
      · have hc : e.event_type = .INITIAL_OSCILLATOR_FREQUENCY ∧ ¬ isHwOsc oscMap s = true :=
          ⟨h2, hw⟩
        have hc2 : e.event_type = .SET_OSCILLATOR_FREQUENCY_START ∨
            (e.event_type = .INITIAL_OSCILLATOR_FREQUENCY ∧ isHwOsc oscMap s = false) :=
          Or.inr ⟨h2, by simpa using hw⟩
        rw [if_pos hc, if_pos hc2]
    · have hc : ¬ (e.event_type = .INITIAL_OSCILLATOR_FREQUENCY ∧ ¬ isHwOsc oscMap s = true) :=
        fun h => h2 h.1
      have hc2 : ¬ (e.event_type = .SET_OSCILLATOR_FREQUENCY_START ∨
          (e.event_type = .INITIAL_OSCILLATOR_FREQUENCY ∧ isHwOsc oscMap s = false)) := by
        rintro (h | h)
        · exact h1 h
        · exact h2 h.1
      rw [if_neg hc, if_neg hc2]
      by_cases hw : isHwOsc oscMap s
      · rw [if_neg (by simpa using hw), if_neg (by simp [hw])]
      · rw [if_pos hw, if_pos (by simpa using hw)]

theorem freqSigStep_snd_shape (oscMap : String → Option OscillatorInfo)
    (m : String → Option ℚ) (e : Event) (s : String) :
    ∃ f, (freqSigStep oscMap (m, e) s).2 = { e with oscillator_frequency := f } := by
  rw [freqSigStep_cases]
  by_cases h1 : e.event_type = .SET_OSCILLATOR_FREQUENCY_START ∨
      (e.event_type = .INITIAL_OSCILLATOR_FREQUENCY ∧ isHwOsc oscMap s = false)
  · exact ⟨e.oscillator_frequency, by rw [if_pos h1]⟩
  · rw [if_neg h1]
    by_cases hw : isHwOsc oscMap s = false
    · rw [if_pos hw]
      rcases hm : m s with _ | v
    
      · exact ⟨e.oscillator_frequency, rfl⟩
      · exact ⟨some v, rfl⟩
    · exact ⟨e.oscillator_frequency, by rw [if_neg hw]⟩

theorem freqSigStep_fst_ne (oscMap : String → Option OscillatorInfo)
    (m : String → Option ℚ) (e : Event) (s x : String) (hx : x ≠ s) :
    (freqSigStep oscMap (m, e) s).1 x = m x := by
  rw [freqSigStep_cases]
  by_cases h1 : e.event_type = .SET_OSCILLATOR_FREQUENCY_START ∨
      (e.event_type = .INITIAL_OSCILLATOR_FREQUENCY ∧ isHwOsc oscMap s = false)
  · rw [if_pos h1]; simp [updOpt, hx]
  · rw [if_neg h1]
    by_cases hw : isHwOsc oscMap s = false
    · rw [if_pos hw]
      rcases hm : m s with _ | v <;> simp
    · rw [if_neg hw]

theorem freqSigStep_fst_eq (oscMap : String → Option OscillatorInfo)
    (m : String → Option ℚ) (e : Event) (s : String) :
    (freqSigStep oscMap (m, e) s).1 s =
      if e.event_type = .SET_OSCILLATOR_FREQUENCY_START ∨
          (e.event_type = .INITIAL_OSCILLATOR_FREQUENCY ∧ isHwOsc oscMap s = false)
      then some e.value else m s := by
  rw [freqSigStep_cases]
  by_cases h1 : e.event_type = .SET_OSCILLATOR_FREQUENCY_START ∨
      (e.event_type = .INITIAL_OSCILLATOR_FREQUENCY ∧ isHwOsc oscMap s = false)
  · rw [if_pos h1, if_pos h1]; simp [updOpt]
  · rw [if_neg h1, if_neg h1]
    by_cases hw : isHwOsc oscMap s = false
    · rw [if_pos hw]
      rcases hm : m s with _ | v <;> simp [hm]
    · rw [if_neg hw]

theorem freqEventStep_foldl_snd_shape (oscMap : String → Option OscillatorInfo) :
    ∀ (sigs : List String) (m : String → Option ℚ) (e : Event),
    ∃ f, (sigs.foldl (freqSigStep oscMap) (m, e)).2 = { e with oscillator_frequency := f } := by
  intro sigs
  induction sigs with
  | nil => intro m e; exact ⟨e.oscillator_frequency, rfl⟩
  | cons s rest ih =>
    intro m e
    rw [List.foldl_cons]
    obtain ⟨f0, hf0⟩ := freqSigStep_snd_shape oscMap m e s
    have hpair : freqSigStep oscMap (m, e) s =
        ((freqSigStep oscMap (m, e) s).1, { e with oscillator_frequency := f0 }) := by
      rw [← hf0]
    rw [hpair]
    obtain ⟨f1, hf1⟩ := ih ((freqSigStep oscMap (m, e) s).1) { e with oscillator_frequency := f0 }
    exact ⟨f1, hf1⟩

theorem freqEventStep_snd_shape (oscMap : String → Option OscillatorInfo)
    (m : String → Option ℚ) (e : Event) :
    ∃ f, (freqEventStep oscMap m e).2 = { e with oscillator_frequency := f } :=
  freqEventStep_foldl_snd_shape oscMap e.signals m e

theorem freqEventStep_foldl_fst (oscMap : String → Option OscillatorInfo) (x : String) :
    ∀ (sigs : List String) (m : String → Option ℚ) (e : Event),
    (sigs.foldl (freqSigStep oscMap) (m, e)).1 x =
      if x ∈ sigs ∧ (e.event_type = .SET_OSCILLATOR_FREQUENCY_START ∨
          (e.event_type = .INITIAL_OSCILLATOR_FREQUENCY ∧ isHwOsc oscMap x = false))
      then some e.value else m x := by
  intro sigs
  induction sigs with
  | nil => intro m e; simp
  | cons s rest ih =>
    intro m e
    rw [List.foldl_cons]
    obtain ⟨f0, hf0⟩ := freqSigStep_snd_shape oscMap m e s
    have hpair : freqSigStep oscMap (m, e) s =
        ((freqSigStep oscMap (m, e) s).1, { e with oscillator_frequency := f0 }) := by
      rw [← hf0]
    rw [hpair, ih]
    by_cases hxs : x = s
    · subst hxs
      rw [freqSigStep_fst_eq]
      by_cases hc : e.event_type = .SET_OSCILLATOR_FREQUENCY_START ∨
          (e.event_type = .INITIAL_OSCILLATOR_FREQUENCY ∧ isHwOsc oscMap x = false)
      · simp only [hc, and_true, if_pos hc]
        by_cases hmem : x ∈ rest <;> simp [hmem, hc]
      · simp only [if_neg hc]
        simp [hc]
    · rw [freqSigStep_fst_ne oscMap m e s x hxs]
      have : (x ∈ s :: rest) = (x ∈ rest) := by
        simp [List.mem_cons, hxs]
      simp [List.mem_cons, hxs]

theorem freqEventStep_fst (oscMap : String → Option OscillatorInfo)
    (m : String → Option ℚ) (e : Event) (x : String) :
    (freqEventStep oscMap m e).1 x =
      if x ∈ e.signals ∧ (e.event_type = .SET_OSCILLATOR_FREQUENCY_START ∨
          (e.event_type = .INITIAL_OSCILLATOR_FREQUENCY ∧ isHwOsc oscMap x = false))
      then some e.value else m x :=
  freqEventStep_foldl_fst oscMap x e.signals m e

/-- Play/acquire processing with a singleton signal whose oscillator is
software and whose frequency is on record: the event gets stamped. -/
theorem freqEventStep_play_stamp (oscMap : String → Option OscillatorInfo)
    (m : String → Option ℚ) (e : Event) (s : String) (v : ℚ)
    (hsig : e.signals = [s])
    (ht1 : e.event_type ≠ .SET_OSCILLATOR_FREQUENCY_START)
    (ht2 : e.event_type ≠ .INITIAL_OSCILLATOR_FREQUENCY)
    (hw : isHwOsc oscMap s = false)
    (hm : m s = some v) :
    (freqEventStep oscMap m e).2 = { e with oscillator_frequency := some v } := by
  unfold freqEventStep
  rw [hsig]
  simp only [List.foldl_cons, List.foldl_nil]
  rw [freqSigStep_cases]
  rw [if_neg (by rintro (h | h); exacts [ht1 h, ht2 h.1]), if_pos hw, hm]
  simp [hsig]

theorem freqRun_fst (oscMap : String → Option OscillatorInfo) :
    ∀ (l : List (Nat × Event)) (m : String → Option ℚ),
    (freqRun oscMap l m).1 = freqMapAfter oscMap l m := by
  intro l
  induction l with
  | nil => intro m; rfl
  | cons ie rest ih =>
    intro m
    show (freqRun oscMap rest (freqEventStep oscMap m ie.2).1).1 = _
    rw [ih]
    rfl

theorem freqRun_length (oscMap : String → Option OscillatorInfo) :
    ∀ (l : List (Nat × Event)) (m : String → Option ℚ),
    (freqRun oscMap l m).2.length = l.length := by
  intro l
  induction l with
  | nil => intro m; rfl
  | cons ie rest ih =>
    intro m
    show ((ie.1, (freqEventStep oscMap m ie.2).2) :: (freqRun oscMap rest _).2).length = _
    simp [ih]

theorem freqRun_map_fst (oscMap : String → Option OscillatorInfo) :
    ∀ (l : List (Nat × Event)) (m : String → Option ℚ),
    (freqRun oscMap l m).2.map Prod.fst = l.map Prod.fst := by
  intro l
  induction l with
  | nil => intro m; rfl
  | cons ie rest ih =>
    intro m
    show ((ie.1, (freqEventStep oscMap m ie.2).2) :: (freqRun oscMap rest _).2).map Prod.fst = _
    simp [ih]

theorem freqRun_getElem (oscMap : String → Option OscillatorInfo) :
    ∀ (l : List (Nat × Event)) (m : String → Option ℚ) (k : Nat) (hk : k < l.length),
    (freqRun oscMap l m).2[k]? =
      some ((l[k].1, (freqEventStep oscMap (freqMapAfter oscMap (l.take k) m) l[k].2).2)) := by
  intro l
  induction l with
  | nil => intro m k hk; exact absurd hk (by simp)
  | cons ie rest ih =>
    intro m k hk
    match k with
    | 0 =>
      show ((ie.1, (freqEventStep oscMap m ie.2).2) :: (freqRun oscMap rest _).2)[0]? = _
      simp [freqMapAfter]
    | Nat.succ k2 =>
      show ((ie.1, (freqEventStep oscMap m ie.2).2) :: (freqRun oscMap rest _).2)[k2 + 1]? = _
      have hk2 : k2 < rest.length := by simpa using hk
      rw [List.getElem?_cons_succ, ih ((freqEventStep oscMap m ie.2).1) k2 hk2]
      simp [freqMapAfter, List.take_succ_cons]

theorem lookupIdx_eq_some_of_mem (i : Nat) (e : Event) :
    ∀ (l : List (Nat × Event)), (l.map Prod.fst).Nodup → (i, e) ∈ l →
    lookupIdx i l = some e := by
  intro l
  induction l with
  | nil => intro _ h; simp at h
  | cons je rest ih =>
    intro hnd hmem
    rcases List.mem_cons.mp hmem with h | h
    · rw [← h]
      simp [lookupIdx]
    · rw [List.map_cons, List.nodup_cons] at hnd
      have hne : i ≠ je.1 := by
        intro hi
        exact hnd.1 (by rw [← hi]; exact List.mem_map.mpr ⟨(i, e), h, rfl⟩)
      simpa [lookupIdx, hne] using ih hnd.2 h

theorem lookupIdx_eq_none (i : Nat) :
    ∀ (l : List (Nat × Event)), i ∉ l.map Prod.fst → lookupIdx i l = none := by
  intro l
  induction l with
  | nil => intro _; rfl
  | cons je rest ih =>
    intro h
    have h1 : i ≠ je.1 := by intro hi; exact h (by simp [hi])
    have h2 : i ∉ rest.map Prod.fst := fun hm => h (by simp [hm])
    simpa [lookupIdx, h1] using ih h2

theorem freqSorted_keys_nodup (evs : List Event) :
    ((freqSorted evs).map Prod.fst).Nodup := by
  have hperm : (freqSorted evs).Perm (evs.enum.filter fun ie => freqSelect ie.2.event_type) :=
    List.perm_insertionSort _ _
  have hmap := hperm.map Prod.fst
  have hsub : ((evs.enum.filter fun ie => freqSelect ie.2.event_type).map Prod.fst).Sublist
      (evs.enum.map Prod.fst) := (List.filter_sublist _).map _
  have hnd : ((evs.enum.filter fun ie => freqSelect ie.2.event_type).map Prod.fst).Nodup := by
    refine hsub.nodup ?_
    rw [List.enum_map_fst]
    exact List.nodup_range _
  exact hmap.nodup_iff.mpr hnd

theorem freqMapAfter_append (oscMap : String → Option OscillatorInfo)
    (l1 l2 : List (Nat × Event)) (m : String → Option ℚ) :
    freqMapAfter oscMap (l1 ++ l2) m = freqMapAfter oscMap l2 (freqMapAfter oscMap l1 m) := by
  simp [freqMapAfter, List.foldl_append]

/-- In a sorted selection whose keys are all ≤ (t, 0), if some
SET_OSCILLATOR_FREQUENCY_START at time `t` targets `s`, then the
current-frequency entry of `s` afterwards is the value of such a SET event. -/
theorem freqMapAfter_last_set (oscMap : String → Option OscillatorInfo)
    (t : ℚ) (s : String) (P : List (Nat × Event)) :
    List.Pairwise freqLe P →
    (∀ ie ∈ P, ie.2.time < t ∨ (ie.2.time = t ∧ freq_priority ie.2.event_type ≤ 0)) →
    (∃ ie ∈ P, ie.2.event_type = .SET_OSCILLATOR_FREQUENCY_START ∧ ie.2.time = t ∧
      s ∈ ie.2.signals) →
    ∀ m, ∃ ie ∈ P, ie.2.event_type = .SET_OSCILLATOR_FREQUENCY_START ∧ ie.2.time = t ∧
      s ∈ ie.2.signals ∧ freqMapAfter oscMap P m s = some ie.2.value := by
  induction P using List.reverseRecOn with
  | nil => intro _ _ hset; simp at hset
  | append_singleton P a ih =>
    intro hsorted hkey hset m
    have hsortP : List.Pairwise freqLe P := by
      exact (List.pairwise_append.mp hsorted).1
    have hPa : ∀ x ∈ P, freqLe x a := by
      intro x hx
      exact (List.pairwise_append.mp hsorted).2.2 x hx a (by simp)
    rw [freqMapAfter_append, freqMapAfter]
    simp only [List.foldl_cons, List.foldl_nil]
    rw [freqEventStep_fst]
    by_cases hcond : s ∈ a.2.signals ∧ (a.2.event_type = .SET_OSCILLATOR_FREQUENCY_START ∨
        (a.2.event_type = .INITIAL_OSCILLATOR_FREQUENCY ∧ isHwOsc oscMap s = false))
    · rw [if_pos hcond]
      -- a itself updates the entry; show a is a SET at time t
      by_cases ha : a.2.event_type = .SET_OSCILLATOR_FREQUENCY_START ∧ a.2.time = t
      · exact ⟨a, by simp, ha.1, ha.2, hcond.1, rfl⟩
      · -- the known SET witness must then lie in P, forcing a to be a SET at t anyway
        obtain ⟨w, hwmem, hwset, hwt, hws⟩ := hset
        have hwP : w ∈ P := by
          rcases List.mem_append.mp hwmem with h | h
          · exact h
          · exfalso
            have : w = a := by simpa using h
            subst this
            exact ha ⟨hwset, hwt⟩
        have hle : freqLe w a := hPa w hwP
        have hka := hkey a (by simp)
        -- from freqLe w a and key a ≤ (t, 0): a.time = t and -15 ≤ priority a
        have hat : a.2.time = t := by
          rcases hka with h2 | ⟨h2, _⟩
          · exfalso
            rcases hle with h | ⟨h, _⟩
            · rw [hwt] at h; linarith
            · rw [hwt] at h; linarith
          · exact h2
        have hpr : freq_priority .SET_OSCILLATOR_FREQUENCY_START ≤ freq_priority a.2.event_type := by
          rcases hle with h | ⟨_, h⟩
          · exfalso; rw [hwt, hat] at h; exact lt_irrefl t h
          · rwa [hwset] at h
        rcases hcond.2 with hSet | hInit
        · exact absurd ⟨hSet, hat⟩ ha
        · rw [hInit.1] at hpr
          norm_num [freq_priority] at hpr
    · rw [if_neg hcond]
      obtain ⟨w, hwmem, hwset, hwt, hws⟩ := hset
      have hwP : w ∈ P := by
        rcases List.mem_append.mp hwmem with h | h
        · exact h
        · exfalso
          have : w = a := by simpa using h
          subst this
          exact hcond ⟨hws, Or.inl hwset⟩
      have hkeyP : ∀ ie ∈ P, ie.2.time < t ∨ (ie.2.time = t ∧ freq_priority ie.2.event_type ≤ 0) :=
        fun ie hie => hkey ie (List.mem_append.mpr (Or.inl hie))
      obtain ⟨ie, hmem, h1, h2, h3, h4⟩ := ih hsortP hkeyP ⟨w, hwP, hwset, hwt, hws⟩ m
      exact ⟨ie, List.mem_append.mpr (Or.inl hmem), h1, h2, h3, h4⟩

/-- C1: in the frequency resolution pass the selected events are ordered by
(time, priority) with INITIAL_OSCILLATOR_FREQUENCY lowest (processed first at
a tied time), SET_OSCILLATOR_FREQUENCY_START next and PLAY_START/ACQUIRE_START
last; consequently a play/acquire event on a software-oscillator signal whose
timestamp coincides with a frequency-set event targeting that signal is
annotated with the value of a same-timestamp set event — the new frequency,
never the stale one. -/
theorem C1_tied_time_play_sees_new_frequency
    (oscMap : String → Option OscillatorInfo) (evs : List Event)
    (i : Nat) (p : Event) (s : String)
    (hip : evs[i]? = some p)
    (hty : p.event_type = .PLAY_START ∨ p.event_type = .ACQUIRE_START)
    (hsig : p.signals = [s])
    (hsw : isHwOsc oscMap s = false)
    (hset : ∃ e ∈ evs, e.event_type = .SET_OSCILLATOR_FREQUENCY_START ∧
      e.time = p.time ∧ s ∈ e.signals) :
    (freq_priority .INITIAL_OSCILLATOR_FREQUENCY < freq_priority .SET_OSCILLATOR_FREQUENCY_START ∧
     freq_priority .SET_OSCILLATOR_FREQUENCY_START < freq_priority .PLAY_START ∧
     freq_priority .PLAY_START = freq_priority .ACQUIRE_START ∧
     List.Sorted freqLe (freqSorted evs)) ∧
    ∃ w, w ∈ evs ∧ w.event_type = .SET_OSCILLATOR_FREQUENCY_START ∧ w.time = p.time ∧
      s ∈ w.signals ∧
      (calculate_osc_freq_sweep oscMap evs)[i]? =
        some { p with oscillator_frequency := some w.value } := by
  have hsortedP : List.Sorted freqLe (freqSorted evs) :=
    List.sorted_insertionSort freqLe _
  refine ⟨⟨by decide, by decide, by decide, hsortedP⟩, ?_⟩
  -- locate the play event inside the sorted selection
  have hpsel : freqSelect p.event_type = true := by
    rcases hty with h | h <;> simp [h, freqSelect]
  have hpmem : (i, p) ∈ freqSorted evs := by
    refine (List.perm_insertionSort freqLe _).mem_iff.mpr ?_
    refine List.mem_filter.mpr ⟨?_, hpsel⟩
    exact List.mem_enum_iff_getElem?.mpr hip
  obtain ⟨k, hk, hgetk⟩ := List.mem_iff_getElem.mp hpmem
  -- locate the frequency-set witness inside the sorted selection
  obtain ⟨w0, hw0mem, hw0set, hw0t, hw0s⟩ := hset
  obtain ⟨j, hj, hgetj0⟩ := List.mem_iff_getElem.mp hw0mem
  have hwmem : (j, w0) ∈ freqSorted evs := by
    refine (List.perm_insertionSort freqLe _).mem_iff.mpr ?_
    refine List.mem_filter.mpr ⟨?_, by simp [hw0set, freqSelect]⟩
    exact List.mem_enum_iff_getElem?.mpr (by rw [List.getElem?_eq_getElem hj, hgetj0])
  obtain ⟨k2, hk2, hgetk2⟩ := List.mem_iff_getElem.mp hwmem
  have hprp : freq_priority p.event_type = 0 := by
    rcases hty with h | h <;> simp [h, freq_priority]
  have hk2lt : k2 < k := by
    rcases Nat.lt_trichotomy k2 k with h | h | h
    · exact h
    · exfalso
      subst h
      have heq : (i, p) = (j, w0) := hgetk.symm.trans hgetk2
      have : w0 = p := (congrArg Prod.snd heq).symm
      rw [this] at hw0set
      rcases hty with hh | hh <;> rw [hh] at hw0set <;> exact EventType.noConfusion hw0set
    · exfalso
      have hrel : freqLe (i, p) (j, w0) := by
        have := hsortedP.rel_get_of_lt (a := ⟨k, hk⟩) (b := ⟨k2, hk2⟩) h
        rwa [List.get_eq_getElem, List.get_eq_getElem, hgetk, hgetk2] at this
      rcases hrel with hlt | ⟨_, hle⟩
      · simp only at hlt
        rw [hw0t] at hlt
        exact lt_irrefl _ hlt
      · simp only [hprp, hw0set] at hle
        norm_num [freq_priority] at hle
  -- the sorted prefix before the play event
  have htakelen : ((freqSorted evs).take k).length = k := by
    simp [Nat.min_eq_left (Nat.le_of_lt hk)]
  have hPpair : List.Pairwise freqLe ((freqSorted evs).take k) :=
    hsortedP.sublist (List.take_sublist k _)
  have hPkey : ∀ ie ∈ (freqSorted evs).take k,
      ie.2.time < p.time ∨ (ie.2.time = p.time ∧ freq_priority ie.2.event_type ≤ 0) := by
    intro ie hie
    obtain ⟨n, hn, hgn⟩ := List.mem_iff_getElem.mp hie
    have hnk : n < k := by rwa [htakelen] at hn
    have hnlen : n < (freqSorted evs).length := lt_of_lt_of_le hnk (Nat.le_of_lt hk)
    have hrel : freqLe ie (i, p) := by
      have := hsortedP.rel_get_of_lt (a := ⟨n, hnlen⟩) (b := ⟨k, hk⟩) hnk
      rw [List.get_eq_getElem, List.get_eq_getElem, hgetk] at this
      rwa [← hgn, List.getElem_take]
    rcases hrel with h | ⟨h1, h2⟩
    · exact Or.inl h
    · exact Or.inr ⟨h1, by rwa [hprp] at h2⟩
  have hPset : ∃ ie ∈ (freqSorted evs).take k,
      ie.2.event_type = .SET_OSCILLATOR_FREQUENCY_START ∧ ie.2.time = p.time ∧
      s ∈ ie.2.signals := by
    refine ⟨(j, w0), ?_, hw0set, hw0t, hw0s⟩
    refine List.mem_iff_getElem.mpr ⟨k2, by rwa [htakelen], ?_⟩
    rw [List.getElem_take, hgetk2]
  obtain ⟨ie0, hie0mem, hie0set, hie0t, hie0s, hie0map⟩ :=
    freqMapAfter_last_set oscMap p.time s ((freqSorted evs).take k)
      hPpair hPkey hPset (fun _ => none)
  -- the k-th processed output record
  have hmods := freqRun_getElem oscMap (freqSorted evs) (fun _ => none) k hk
  rw [hgetk] at hmods
  have hstamp : (freqEventStep oscMap
      (freqMapAfter oscMap ((freqSorted evs).take k) (fun _ => none)) p).2 =
      { p with oscillator_frequency := some ie0.2.value } := by
    refine freqEventStep_play_stamp oscMap _ p s ie0.2.value hsig ?_ ?_ hsw hie0map
    · rcases hty with h | h <;> rw [h] <;> exact fun hh => EventType.noConfusion hh
    · rcases hty with h | h <;> rw [h] <;> exact fun hh => EventType.noConfusion hh
  rw [hstamp] at hmods
  -- turn the positional fact into a lookup fact
  have hmodmem : (i, { p with oscillator_frequency := some ie0.2.value }) ∈
      (freqRun oscMap (freqSorted evs) (fun _ => none)).2 := by
    have hlen : k < (freqRun oscMap (freqSorted evs) (fun _ => none)).2.length := by
      rw [freqRun_length]; exact hk
    refine List.mem_iff_getElem.mpr ⟨k, hlen, ?_⟩
    have := List.getElem?_eq_getElem hlen
    rw [this] at hmods
    exact Option.some.inj hmods.symm |>.symm
  have hmodnodup : ((freqRun oscMap (freqSorted evs) (fun _ => none)).2.map Prod.fst).Nodup := by
    rw [freqRun_map_fst]
    exact freqSorted_keys_nodup evs
  have hlook := lookupIdx_eq_some_of_mem i _ _ hmodnodup hmodmem
  -- read off the final list at position i
  refine ⟨ie0.2, ?_, hie0set, hie0t, hie0s, ?_⟩
  · -- membership of the witness in the original list
    have h1 : ie0 ∈ freqSorted evs := (List.take_sublist k _).subset hie0mem
    have h2 : ie0 ∈ evs.enum.filter (fun ie => freqSelect ie.2.event_type) :=
      (List.perm_insertionSort freqLe _).mem_iff.mp h1
    have h3 : ie0 ∈ evs.enum := List.mem_of_mem_filter h2
    have h4 := List.mem_enum_iff_getElem?.mp h3
    obtain ⟨hlt, hg⟩ := List.getElem?_eq_some.mp h4
    exact List.mem_iff_getElem.mpr ⟨ie0.1, hlt, hg⟩
  · unfold calculate_osc_freq_sweep
    rw [List.getElem?_map, List.getElem?_enum, hip]
    simp [hlook]

/-- Witness for C1 at a concrete input: a play and a frequency set at the
identical time 1 on signal "a" (software oscillator). -/
theorem C1_witness :
    (freq_priority .INITIAL_OSCILLATOR_FREQUENCY < freq_priority .SET_OSCILLATOR_FREQUENCY_START ∧
     freq_priority .SET_OSCILLATOR_FREQUENCY_START < freq_priority .PLAY_START ∧
     freq_priority .PLAY_START = freq_priority .ACQUIRE_START ∧
     List.Sorted freqLe (freqSorted
       [{ event_type := .PLAY_START, time := 1, signals := ["a"] },
        { event_type := .SET_OSCILLATOR_FREQUENCY_START, time := 1, signals := ["a"], value := 7 }])) ∧
    ∃ w, w ∈ [({ event_type := .PLAY_START, time := 1, signals := ["a"] } : Event),
        { event_type := .SET_OSCILLATOR_FREQUENCY_START, time := 1, signals := ["a"], value := 7 }] ∧
      w.event_type = .SET_OSCILLATOR_FREQUENCY_START ∧
      w.time = ({ event_type := .PLAY_START, time := 1, signals := ["a"] } : Event).time ∧
      "a" ∈ w.signals ∧
      (calculate_osc_freq_sweep (fun _ => some ⟨false⟩)
        [{ event_type := .PLAY_START, time := 1, signals := ["a"] },
         { event_type := .SET_OSCILLATOR_FREQUENCY_START, time := 1, signals := ["a"], value := 7 }])[0]? =
        some { ({ event_type := .PLAY_START, time := 1, signals := ["a"] } : Event) with
                oscillator_frequency := some w.value } :=
  C1_tied_time_play_sees_new_frequency (fun _ => some ⟨false⟩)
    [{ event_type := .PLAY_START, time := 1, signals := ["a"] },
     { event_type := .SET_OSCILLATOR_FREQUENCY_START, time := 1, signals := ["a"], value := 7 }]
    0 { event_type := .PLAY_START, time := 1, signals := ["a"] } "a"
    rfl (Or.inl rfl) rfl rfl
    ⟨{ event_type := .SET_OSCILLATOR_FREQUENCY_START, time := 1, signals := ["a"], value := 7 },
      by simp, rfl, rfl, by simp⟩

/-- C9: `reset()` empties exactly the acquire-pulse cache and leaves the
signal registry, the sampling-rate lookup, the pending warnings and the
experiment DAO unchanged. -/
theorem C9_reset_clears_only_acquire_pulses {Dao Srt Pulse Sig Warn : Type}
    (d : ScheduleData Dao Srt Pulse Sig Warn) :
    d.reset.acquire_pulses = [] ∧
    d.reset.signal_objects = d.signal_objects ∧
    d.reset.sampling_rate_tracker = d.sampling_rate_tracker ∧
    d.reset.combined_warnings = d.combined_warnings ∧
    d.reset.experiment_dao = d.experiment_dao :=
  ⟨rfl, rfl, rfl, rfl, rfl⟩

/-- C3 counterexample: a SET_OSCILLATOR_FREQUENCY_START event targeting the
hardware-oscillator signal "a" does update the current-frequency map entry
(from absent to the event's value), contradicting the claim that
frequency-defining events update the map only for non-hardware oscillators. -/
theorem C3_counterexample :
    isHwOsc (fun _ => some ⟨true⟩) "a" = true ∧
    (fun _ => none : String → Option ℚ) "a" = none ∧
    (freqEventStep (fun _ => some ⟨true⟩) (fun _ => none)
      { event_type := .SET_OSCILLATOR_FREQUENCY_START, time := 0, signals := ["a"],
        value := 5 }).1 "a" = some 5 := by
  refine ⟨rfl, rfl, ?_⟩
  rw [freqEventStep_fst]
  simp

/-- C3 (amended): during the frequency sweep a SET_OSCILLATOR_FREQUENCY_START
event updates the current-frequency map for each targeted signal
unconditionally (hardware or not), while an INITIAL_OSCILLATOR_FREQUENCY event
updates only signals whose oscillator is not hardware and leaves hardware
entries untouched. -/
theorem C3_amended_update_rule (oscMap : String → Option OscillatorInfo)
    (m : String → Option ℚ) (e : Event) (s : String) (hs : s ∈ e.signals) :
    (e.event_type = .SET_OSCILLATOR_FREQUENCY_START →
      (freqEventStep oscMap m e).1 s = some e.value) ∧
    (e.event_type = .INITIAL_OSCILLATOR_FREQUENCY → isHwOsc oscMap s = false →
      (freqEventStep oscMap m e).1 s = some e.value) ∧
    (e.event_type = .INITIAL_OSCILLATOR_FREQUENCY → isHwOsc oscMap s = true →
      (freqEventStep oscMap m e).1 s = m s) := by
  refine ⟨?_, ?_, ?_⟩
  · intro h1
    rw [freqEventStep_fst, if_pos ⟨hs, Or.inl h1⟩]
  · intro h1 h2
    rw [freqEventStep_fst, if_pos ⟨hs, Or.inr ⟨h1, h2⟩⟩]
  · intro h1 h2
    rw [freqEventStep_fst, if_neg]
    rintro ⟨-, h | ⟨-, h⟩⟩
    · rw [h1] at h; exact EventType.noConfusion h
    · rw [h2] at h; exact Bool.noConfusion h

/-- Witness for the amended C3 at a concrete input. -/
theorem C3_amended_witness :
    (exInitial.event_type = .SET_OSCILLATOR_FREQUENCY_START →
      (freqEventStep swOscMap emptyFreqMap exInitial).1 "a" = some exInitial.value) ∧
    (exInitial.event_type = .INITIAL_OSCILLATOR_FREQUENCY →
      isHwOsc swOscMap "a" = false →
      (freqEventStep swOscMap emptyFreqMap exInitial).1 "a" = some exInitial.value) ∧
    (exInitial.event_type = .INITIAL_OSCILLATOR_FREQUENCY →
      isHwOsc swOscMap "a" = true →
      (freqEventStep swOscMap emptyFreqMap exInitial).1 "a" = emptyFreqMap "a") :=
  C3_amended_update_rule swOscMap emptyFreqMap exInitial "a" (by simp [exInitial])

theorem lookupIdx_mem (i : Nat) (e : Event) :
    ∀ l : List (Nat × Event), lookupIdx i l = some e → (i, e) ∈ l := by
  intro l
  induction l with
  | nil => intro h; exact Option.noConfusion h
  | cons je rest ih =>
    intro h
    unfold lookupIdx at h
    by_cases hi : i = je.1
    · rw [if_pos hi] at h
      have h2 : e = je.2 := Option.some.inj h |>.symm
      exact List.mem_cons.mpr (Or.inl (Prod.ext_iff.mpr ⟨hi, h2⟩))
    · rw [if_neg hi] at h
      exact List.mem_cons.mpr (Or.inr (ih h))

/-- A member of the sorted selection is an (index, event) pair of the
original list. -/
theorem mem_freqSorted (evs : List Event) (ie : Nat × Event)
    (h : ie ∈ freqSorted evs) : evs[ie.1]? = some ie.2 := by
  have h2 : ie ∈ evs.enum.filter (fun x => freqSelect x.2.event_type) :=
    (List.perm_insertionSort freqLe _).mem_iff.mp h
  exact List.mem_enum_iff_getElem?.mp (List.mem_of_mem_filter h2)

theorem freqEventStep_no_op (oscMap : String → Option OscillatorInfo) :
    ∀ (sigs : List String) (m : String → Option ℚ) (e : Event),
    e.event_type ≠ .SET_OSCILLATOR_FREQUENCY_START →
    e.event_type ≠ .INITIAL_OSCILLATOR_FREQUENCY →
    (∀ s ∈ sigs, isHwOsc oscMap s = true ∨ m s = none) →
    sigs.foldl (freqSigStep oscMap) (m, e) = (m, e) := by
  intro sigs
  induction sigs with
  | nil => intro m e _ _ _; rfl
  | cons s rest ih =>
    intro m e h1 h2 h3
    rw [List.foldl_cons]
    have hstep : freqSigStep oscMap (m, e) s = (m, e) := by
      rw [freqSigStep_cases]
      rw [if_neg (by rintro (h | h); exacts [h1 h, h2 h.1])]
      rcases h3 s (by simp) with hw | hme
      · rw [if_neg (by simp [hw])]
      · by_cases hw : isHwOsc oscMap s = false
        · rw [if_pos hw, hme]
        · rw [if_neg hw]
    rw [hstep]
    exact ih m e h1 h2 (fun x hx => h3 x (by simp [hx]))

theorem freqEventStep_snd_updater (oscMap : String → Option OscillatorInfo) :
    ∀ (sigs : List String) (m : String → Option ℚ) (e : Event),
    (e.event_type = .SET_OSCILLATOR_FREQUENCY_START ∨
     e.event_type = .INITIAL_OSCILLATOR_FREQUENCY) →
    (sigs.foldl (freqSigStep oscMap) (m, e)).2 = e := by
  intro sigs
  induction sigs with
  | nil => intro m e _; rfl
  | cons s rest ih =>
    intro m e h
    rw [List.foldl_cons]
    have hsnd : (freqSigStep oscMap (m, e) s).2 = e := by
      rw [freqSigStep_cases]
      by_cases hc : e.event_type = .SET_OSCILLATOR_FREQUENCY_START ∨
          (e.event_type = .INITIAL_OSCILLATOR_FREQUENCY ∧ isHwOsc oscMap s = false)
      · rw [if_pos hc]
      · rw [if_neg hc]
        have hw : ¬ isHwOsc oscMap s = false := by
          intro hwf
          rcases h with h | h
          · exact hc (Or.inl h)
          · exact hc (Or.inr ⟨h, hwf⟩)
        rw [if_neg hw]
    have hpair : freqSigStep oscMap (m, e) s = ((freqSigStep oscMap (m, e) s).1, e) :=
      Prod.ext_iff.mpr ⟨rfl, hsnd⟩
    rw [hpair]
    exact ih _ e h

theorem freqRun_id (oscMap : String → Option OscillatorInfo) :
    ∀ (l : List (Nat × Event)) (m : String → Option ℚ),
    (∀ ie ∈ l, ie.2.event_type ≠ .INITIAL_OSCILLATOR_FREQUENCY) →
    (∀ ie ∈ l, ie.2.event_type = .SET_OSCILLATOR_FREQUENCY_START →
      ∀ s ∈ ie.2.signals, isHwOsc oscMap s = true) →
    (∀ s v, m s = some v → isHwOsc oscMap s = true) →
    (freqRun oscMap l m).2 = l := by
  intro l
  induction l with
  | nil => intro m _ _ _; rfl
  | cons ie rest ih =>
    intro m h1 h2 h3
    show ((ie.1, (freqEventStep oscMap m ie.2).2) :: (freqRun oscMap rest _).2) = ie :: rest
    have hmap : ∀ s v, (freqEventStep oscMap m ie.2).1 s = some v → isHwOsc oscMap s = true := by
      intro s v hv
      rw [freqEventStep_fst] at hv
      by_cases hc : s ∈ ie.2.signals ∧ (ie.2.event_type = .SET_OSCILLATOR_FREQUENCY_START ∨
          (ie.2.event_type = .INITIAL_OSCILLATOR_FREQUENCY ∧ isHwOsc oscMap s = false))
      · rcases hc.2 with hS | hI
        · exact h2 ie (by simp) hS s hc.1
        · exact absurd hI.1 (h1 ie (by simp))
      · rw [if_neg hc] at hv
        exact h3 s v hv
    by_cases hty : ie.2.event_type = .SET_OSCILLATOR_FREQUENCY_START ∨
        ie.2.event_type = .INITIAL_OSCILLATOR_FREQUENCY
    · have hsnd : (freqEventStep oscMap m ie.2).2 = ie.2 :=
        freqEventStep_snd_updater oscMap ie.2.signals m ie.2 hty
      rw [hsnd, ih _ (fun x hx => h1 x (by simp [hx])) (fun x hx => h2 x (by simp [hx])) hmap]
    · push_neg at hty
      have hno : ie.2.signals.foldl (freqSigStep oscMap) (m, ie.2) = (m, ie.2) := by
        refine freqEventStep_no_op oscMap ie.2.signals m ie.2 hty.1 hty.2 ?_
        intro s _
        by_cases hw : isHwOsc oscMap s = true
        · exact Or.inl hw
        · right
          rcases hm : m s with _ | v
          · rfl
          · exact absurd (h3 s v hm) hw
      have hno2 : freqEventStep oscMap m ie.2 = (m, ie.2) := hno
      rw [hno2]
      show (ie.1, ie.2) :: (freqRun oscMap rest m).2 = ie :: rest
      rw [ih m (fun x hx => h1 x (by simp [hx])) (fun x hx => h2 x (by simp [hx])) h3]

theorem calculate_osc_freq_sweep_id (oscMap : String → Option OscillatorInfo)
    (evs : List Event)
    (h1 : ∀ e ∈ evs, e.event_type ≠ .INITIAL_OSCILLATOR_FREQUENCY)
    (h2 : ∀ e ∈ evs, e.event_type = .SET_OSCILLATOR_FREQUENCY_START →
      ∀ s ∈ e.signals, isHwOsc oscMap s = true) :
    calculate_osc_freq_sweep oscMap evs = evs := by
  have hmem2 : ∀ ie ∈ freqSorted evs, ie.2 ∈ evs := by
    intro ie hie
    obtain ⟨hlt, hg⟩ := List.getElem?_eq_some.mp (mem_freqSorted evs ie hie)
    exact List.mem_iff_getElem.mpr ⟨ie.1, hlt, hg⟩
  have hmods : (freqRun oscMap (freqSorted evs) (fun _ => none)).2 = freqSorted evs := by
    refine freqRun_id oscMap _ _ ?_ ?_ ?_
    · intro ie hie; exact h1 ie.2 (hmem2 ie hie)
    · intro ie hie hS; exact h2 ie.2 (hmem2 ie hie) hS
    · intro s v hv; exact Option.noConfusion hv
  unfold calculate_osc_freq_sweep
  rw [hmods]
  apply List.ext_getElem?
  intro n
  rw [List.getElem?_map, List.getElem?_enum]
  rcases hn : evs[n]? with _ | en
  · rfl
  · simp only [Option.map_some']
    rcases hl : lookupIdx n (freqSorted evs) with _ | e2
    · simp [hl]
    · have hmem := lookupIdx_mem n e2 _ hl
      have hsome := mem_freqSorted evs (n, e2) hmem
      rw [hn] at hsome
      have he2 : e2 = en := (Option.some.inj hsome).symm
      simp [hl, he2]

theorem markStartLoop_no_marks (oscMap : String → Option OscillatorInfo) :
    ∀ (l : List Event) (acc : List Nat),
    (∀ e ∈ l, e.event_type ≠ .INITIAL_OSCILLATOR_FREQUENCY) →
    (∀ e ∈ l, e.event_type = .SET_OSCILLATOR_FREQUENCY_START →
      ∀ s ∈ e.signals, isHwOsc oscMap s = true) →
    markStartLoop oscMap l acc = .ok acc := by
  intro l
  induction l with
  | nil => intro acc _ _; rfl
  | cons e rest ih =>
    intro acc h1 h2
    have hstep : markStart oscMap acc e = .ok acc := by
      unfold markStart
      rw [if_neg, if_neg (h1 e (by simp))]
      rintro ⟨hS, hAny⟩
      obtain ⟨s, hs, hp⟩ := List.any_eq_true.mp hAny
      have := h2 e (by simp) hS s hs
      simp [this] at hp
    unfold markStartLoop
    simp only [hstep]
    exact ih acc (fun x hx => h1 x (by simp [hx])) (fun x hx => h2 x (by simp [hx]))

theorem markEndLoop_empty :
    ∀ (l : List Event),
    (∀ e ∈ l, e.event_type = .SET_OSCILLATOR_FREQUENCY_END →
      e.chain_element_id.isSome) →
    markEndLoop l [] = .ok [] := by
  intro l
  induction l with
  | nil => intro _; rfl
  | cons e rest ih =>
    intro h
    have hstep : markEnd [] e = .ok [] := by
      unfold markEnd
      by_cases hE : e.event_type = .SET_OSCILLATOR_FREQUENCY_END
      · rw [if_pos hE]
        rcases hc : e.chain_element_id with _ | c
        · exact absurd (h e (by simp) hE) (by simp [hc])
        · simp
      · rw [if_neg hE]
    unfold markEndLoop
    simp only [hstep]
    exact ih (fun x hx => h x (by simp [hx]))

theorem filterHandled_empty :
    ∀ (l : List Event), (∀ e ∈ l, e.id.isSome) →
    filterHandled [] l = .ok l := by
  intro l
  induction l with
  | nil => intro _; rfl
  | cons e rest ih =>
    intro h
    unfold filterHandled
    rcases hid : e.id with _ | n
    · exact absurd (h e (by simp)) (by simp [hid])
    · rw [ih (fun x hx => h x (by simp [hx]))]
      simp

/-- C8: frequency resolution is idempotent on an already-filtered list — with
no INITIAL_OSCILLATOR_FREQUENCY event and no SET_OSCILLATOR_FREQUENCY_START
targeting a non-hardware oscillator (and events carrying the "id" and
"chain_element_id" entries the filter reads), the pass returns the identical
event list with unchanged annotations. -/
theorem C8_idempotent_on_filtered (oscMap : String → Option OscillatorInfo)
    (evs : List Event)
    (h1 : ∀ e ∈ evs, e.event_type ≠ .INITIAL_OSCILLATOR_FREQUENCY)
    (h2 : ∀ e ∈ evs, e.event_type = .SET_OSCILLATOR_FREQUENCY_START →
      ∀ s ∈ e.signals, isHwOsc oscMap s = true)
    (h3 : ∀ e ∈ evs, e.id.isSome)
    (h4 : ∀ e ∈ evs, e.event_type = .SET_OSCILLATOR_FREQUENCY_END →
      e.chain_element_id.isSome) :
    calculate_osc_freq oscMap evs = .ok evs := by
  unfold calculate_osc_freq
  rw [calculate_osc_freq_sweep_id oscMap evs h1 h2]
  unfold remove_handled_oscillator_events
  simp only [markStartLoop_no_marks oscMap evs [] h1 h2, markEndLoop_empty evs h4,
    filterHandled_empty evs h3]

/-- Witness for C8: a single hardware-targeting SET/END pair plus a play event,
all carrying ids. -/
theorem C8_witness :
    calculate_osc_freq hwOscMap [exSetId, exEndId, exPlayId] = .ok [exSetId, exEndId, exPlayId] :=
  C8_idempotent_on_filtered hwOscMap [exSetId, exEndId, exPlayId]
    (by intro e he; fin_cases he <;> simp [exSetId, exEndId, exPlayId])
    (by intro e he; fin_cases he <;> simp [exSetId, exEndId, exPlayId, hwOscMap, isHwOsc])
    (by intro e he; fin_cases he <;> simp [exSetId, exEndId, exPlayId])
    (by intro e he; fin_cases he <;> simp [exSetId, exEndId, exPlayId])

theorem mem_addHandled (n n0 : Nat) (acc : List Nat) :
    n ∈ addHandled n0 acc ↔ (n = n0 ∨ n ∈ acc) := by
  unfold addHandled
  by_cases h : n0 ∈ acc
  · rw [if_pos h]
    constructor
    · exact fun hn => Or.inr hn
    · rintro (rfl | hn)
      · exact h
      · exact hn
  · rw [if_neg h]
    simp [List.mem_cons]

theorem markedStartB_iff (oscMap : String → Option OscillatorInfo) (e : Event) :
    markedStartB oscMap e = true ↔
      (e.event_type = .SET_OSCILLATOR_FREQUENCY_START ∧
       e.signals.any (fun s => ¬ isHwOsc oscMap s) = true) := by
  simp [markedStartB]

theorem nodup_id_inj :
    ∀ (l : List Event), (l.map Event.id).Nodup →
    ∀ e ∈ l, ∀ e2 ∈ l, e.id = e2.id → e.id.isSome → e = e2 := by
  intro l
  induction l with
  | nil => intro _ e he; simp at he
  | cons x rest ih =>
    intro hnd e he e2 he2 hid hsome
    rw [List.map_cons, List.nodup_cons] at hnd
    rcases List.mem_cons.mp he with he1 | he1
    · rcases List.mem_cons.mp he2 with he21 | he21
      · rw [he1, he21]
      · exfalso
        apply hnd.1
        rw [← he1, hid]
        exact List.mem_map.mpr ⟨e2, he21, rfl⟩
    · rcases List.mem_cons.mp he2 with he21 | he21
      · exfalso
        apply hnd.1
        rw [← he21, ← hid]
        exact List.mem_map.mpr ⟨e, he1, rfl⟩
      · exact ih hnd.2 e he1 e2 he21 hid hsome

theorem markStartLoop_char (oscMap : String → Option OscillatorInfo) :
    ∀ (l : List Event) (acc : List Nat),
    (∀ e ∈ l, (markedStartB oscMap e = true ∨
        e.event_type = .INITIAL_OSCILLATOR_FREQUENCY) → e.id.isSome) →
    ∃ r, markStartLoop oscMap l acc = .ok r ∧
      ∀ n, n ∈ r ↔ (n ∈ acc ∨ ∃ e ∈ l, e.id = some n ∧
        (markedStartB oscMap e = true ∨ e.event_type = .INITIAL_OSCILLATOR_FREQUENCY)) := by
  intro l
  induction l with
  | nil =>
    intro acc _
    exact ⟨acc, rfl, by simp⟩
  | cons e rest ih =>
    intro acc hids
    by_cases hm : markedStartB oscMap e = true ∨ e.event_type = .INITIAL_OSCILLATOR_FREQUENCY
    · rcases hn0 : e.id with _ | n0
      · exact absurd (hids e (by simp) hm) (by simp [hn0])
      · have hstep : markStart oscMap acc e = .ok (addHandled n0 acc) := by
          unfold markStart
          rcases hm with hm | hm
          · rw [if_pos ((markedStartB_iff oscMap e).mp hm), hn0]
          · by_cases hms : markedStartB oscMap e = true
            · rw [if_pos ((markedStartB_iff oscMap e).mp hms), hn0]
            · rw [if_neg (fun hc => hms ((markedStartB_iff oscMap e).mpr hc)), if_pos hm, hn0]
        obtain ⟨r, hr, hchar⟩ := ih (addHandled n0 acc) (fun x hx => hids x (by simp [hx]))
        refine ⟨r, ?_, ?_⟩
        · unfold markStartLoop
          simp only [hstep]
          exact hr
        · intro n
          rw [hchar n, mem_addHandled]
          constructor
          · rintro ((rfl | hacc) | ⟨e2, he2, hid2, hm2⟩)
            · exact Or.inr ⟨e, by simp, hn0, hm⟩
            · exact Or.inl hacc
            · exact Or.inr ⟨e2, by simp [he2], hid2, hm2⟩
          · rintro (hacc | ⟨e2, he2, hid2, hm2⟩)
            · exact Or.inl (Or.inr hacc)
            · rcases List.mem_cons.mp he2 with rfl | he2
              · rw [hn0] at hid2
                exact Or.inl (Or.inl (Option.some.inj hid2).symm)
              · exact Or.inr ⟨e2, he2, hid2, hm2⟩
    · push_neg at hm
      have hstep : markStart oscMap acc e = .ok acc := by
        unfold markStart
        rw [if_neg (fun hc => hm.1 ((markedStartB_iff oscMap e).mpr hc)), if_neg hm.2]
      obtain ⟨r, hr, hchar⟩ := ih acc (fun x hx => hids x (by simp [hx]))
      refine ⟨r, ?_, ?_⟩
      · unfold markStartLoop
        simp only [hstep]
        exact hr
      · intro n
        rw [hchar n]
        constructor
        · rintro (hacc | ⟨e2, he2, hid2, hm2⟩)
          · exact Or.inl hacc
          · exact Or.inr ⟨e2, by simp [he2], hid2, hm2⟩
        · rintro (hacc | ⟨e2, he2, hid2, hm2⟩)
          · exact Or.inl hacc
          · rcases List.mem_cons.mp he2 with rfl | he2
            · exact absurd hm2 (by
                rintro (h | h)
                · exact hm.1 h
                · exact hm.2 h)
            · exact Or.inr ⟨e2, he2, hid2, hm2⟩

theorem markEndLoop_char (evs : List Event) (h1res : List Nat)
    (hends : ∀ e ∈ evs, e.event_type = .SET_OSCILLATOR_FREQUENCY_END →
      e.chain_element_id.isSome ∧ e.id.isSome)
    (hchainStart : ∀ e ∈ evs, e.event_type = .SET_OSCILLATOR_FREQUENCY_END →
      ∀ e2 ∈ evs, e2.id = e.chain_element_id →
        e2.event_type = .SET_OSCILLATOR_FREQUENCY_START) :
    ∀ (l : List Event) (acc : List Nat),
    (∀ e ∈ l, e ∈ evs) →
    (∀ n ∈ acc, n ∈ h1res ∨ ∃ e ∈ evs, e.event_type = .SET_OSCILLATOR_FREQUENCY_END ∧
      e.id = some n) →
    (∀ n ∈ h1res, n ∈ acc) →
    ∃ r, markEndLoop l acc = .ok r ∧
      ∀ n, n ∈ r ↔ (n ∈ acc ∨ ∃ e ∈ l, e.event_type = .SET_OSCILLATOR_FREQUENCY_END ∧
        e.id = some n ∧ ∃ c, e.chain_element_id = some c ∧ c ∈ h1res) := by
  intro l
  induction l with
  | nil =>
    intro acc _ _ _
    exact ⟨acc, rfl, by simp⟩
  | cons e rest ih =>
    intro acc hsub hacc hh1acc
    by_cases hE : e.event_type = .SET_OSCILLATOR_FREQUENCY_END
    · obtain ⟨hcs, his⟩ := hends e (hsub e (by simp)) hE
      rcases hc : e.chain_element_id with _ | c
      · exact absurd hcs (by simp [hc])
      · have hciff : (c ∈ acc) ↔ (c ∈ h1res) := by
          constructor
          · intro hca
            rcases hacc c hca with h | ⟨e2, he2, hE2, hid2⟩
            · exact h
            · exfalso
              have := hchainStart e (hsub e (by simp)) hE e2 he2 (by rw [hid2, hc])
              rw [hE2] at this
              exact EventType.noConfusion this
          · exact fun h => hh1acc c h
        by_cases hca : c ∈ acc
        · rcases hn0 : e.id with _ | n0
          · exact absurd his (by simp [hn0])
          · have hstep : markEnd acc e = .ok (addHandled n0 acc) := by
              unfold markEnd
              rw [if_pos hE, hc]
              simp only [if_pos hca, hn0]
            obtain ⟨r, hr, hchar⟩ := ih (addHandled n0 acc)
              (fun x hx => hsub x (by simp [hx]))
              (by
                intro n hn
                rcases (mem_addHandled n n0 acc).mp hn with rfl | hn2
                · exact Or.inr ⟨e, hsub e (by simp), hE, hn0⟩
                · exact hacc n hn2)
              (fun n hn => (mem_addHandled n n0 acc).mpr (Or.inr (hh1acc n hn)))
            refine ⟨r, ?_, ?_⟩
            · unfold markEndLoop
              simp only [hstep]
              exact hr
            · intro n
              rw [hchar n, mem_addHandled]
              constructor
              · rintro ((rfl | hn2) | ⟨e2, he2, hE2, hid2, c2, hc2, hch2⟩)
                · exact Or.inr ⟨e, by simp, hE, hn0, c, hc, hciff.mp hca⟩
                · exact Or.inl hn2
                · exact Or.inr ⟨e2, by simp [he2], hE2, hid2, c2, hc2, hch2⟩
              · rintro (hn2 | ⟨e2, he2, hE2, hid2, c2, hc2, hch2⟩)
                · exact Or.inl (Or.inr hn2)
                · rcases List.mem_cons.mp he2 with he21 | he21
                  · rw [he21, hn0] at hid2
                    exact Or.inl (Or.inl (Option.some.inj hid2).symm)
                  · exact Or.inr ⟨e2, he21, hE2, hid2, c2, hc2, hch2⟩
        · have hstep : markEnd acc e = .ok acc := by
            unfold markEnd
            rw [if_pos hE, hc]
            simp only [if_neg hca]
          obtain ⟨r, hr, hchar⟩ := ih acc (fun x hx => hsub x (by simp [hx])) hacc hh1acc
          refine ⟨r, ?_, ?_⟩
          · unfold markEndLoop
            simp only [hstep]
            exact hr
          · intro n
            rw [hchar n]
            constructor
            · rintro (hn2 | ⟨e2, he2, hE2, hid2, c2, hc2, hch2⟩)
              · exact Or.inl hn2
              · exact Or.inr ⟨e2, by simp [he2], hE2, hid2, c2, hc2, hch2⟩
            · rintro (hn2 | ⟨e2, he2, hE2, hid2, c2, hc2, hch2⟩)
              · exact Or.inl hn2
              · rcases List.mem_cons.mp he2 with he21 | he21
                · exfalso
                  rw [he21, hc] at hc2
                  have : c = c2 := Option.some.inj hc2
                  exact hca (hciff.mpr (this ▸ hch2))
                · exact Or.inr ⟨e2, he21, hE2, hid2, c2, hc2, hch2⟩
    · have hstep : markEnd acc e = .ok acc := by
        unfold markEnd
        rw [if_neg hE]
      obtain ⟨r, hr, hchar⟩ := ih acc (fun x hx => hsub x (by simp [hx])) hacc hh1acc
      refine ⟨r, ?_, ?_⟩
      · unfold markEndLoop
        simp only [hstep]
        exact hr
      · intro n
        rw [hchar n]
        constructor
        · rintro (hn2 | ⟨e2, he2, hE2, hid2, c2, hc2, hch2⟩)
          · exact Or.inl hn2
          · exact Or.inr ⟨e2, by simp [he2], hE2, hid2, c2, hc2, hch2⟩
        · rintro (hn2 | ⟨e2, he2, hE2, hid2, c2, hc2, hch2⟩)
          · exact Or.inl hn2
          · rcases List.mem_cons.mp he2 with he21 | he21
            · exact absurd (he21 ▸ hE2) hE
            · exact Or.inr ⟨e2, he21, hE2, hid2, c2, hc2, hch2⟩

theorem filterHandled_char (h : List Nat) :
    ∀ (l : List Event), (∀ e ∈ l, e.id.isSome) →
    filterHandled h l = .ok (l.filter fun e =>
      match e.id with
      | some n => decide (n ∉ h)
      | none => true) := by
  intro l
  induction l with
  | nil => intro _; rfl
  | cons e rest ih =>
    intro hid
    unfold filterHandled
    rcases hn : e.id with _ | n
    · exact absurd (hid e (by simp)) (by simp [hn])
    · rw [ih (fun x hx => hid x (by simp [hx]))]
      by_cases hmem : n ∈ h
      · simp [List.filter_cons, hn, hmem]
      · simp [List.filter_cons, hn, hmem]

theorem removableB_eq_true_iff (oscMap : String → Option OscillatorInfo)
    (evs : List Event) (e : Event) :
    removableB oscMap evs e = true ↔
      (markedStartB oscMap e = true ∨
       e.event_type = .INITIAL_OSCILLATOR_FREQUENCY ∨
       (e.event_type = .SET_OSCILLATOR_FREQUENCY_END ∧ ∃ c, e.chain_element_id = some c ∧
         ∃ e2 ∈ evs, markedStartB oscMap e2 = true ∧ e2.id = some c)) := by
  unfold removableB
  rcases hc : e.chain_element_id with _ | c
  · simp [List.any_eq_true]
  · simp [List.any_eq_true, hc]
    tauto

/-- C4: the dead-event filter removes exactly the
SET_OSCILLATOR_FREQUENCY_START events targeting at least one non-hardware
oscillator, every INITIAL_OSCILLATOR_FREQUENCY event, and every
SET_OSCILLATOR_FREQUENCY_END whose chain-element back-reference is the id of a
removed START — every other event survives, in order.  (Hypotheses: ids are
present and unique, and END back-references, where they resolve in the list,
resolve to START events — the data-model invariant of chain elements.) -/
theorem C4_dead_event_filter_exact (oscMap : String → Option OscillatorInfo)
    (evs : List Event)
    (hid : ∀ e ∈ evs, e.id.isSome)
    (hnodup : (evs.map Event.id).Nodup)
    (hchain : ∀ e ∈ evs, e.event_type = .SET_OSCILLATOR_FREQUENCY_END →
      e.chain_element_id.isSome ∧
      ∀ e2 ∈ evs, e2.id = e.chain_element_id →
        e2.event_type = .SET_OSCILLATOR_FREQUENCY_START) :
    remove_handled_oscillator_events oscMap evs =
      .ok (evs.filter fun e => ! removableB oscMap evs e) := by
  obtain ⟨h1r, hr1, hchar1⟩ := markStartLoop_char oscMap evs [] (fun e he _ => hid e he)
  obtain ⟨h2r, hr2, hchar2⟩ := markEndLoop_char evs h1r
    (fun e he hE => ⟨(hchain e he hE).1, hid e he⟩)
    (fun e he hE => (hchain e he hE).2)
    evs h1r (fun e he => he)
    (fun n hn => Or.inl hn)
    (fun n hn => hn)
  unfold remove_handled_oscillator_events
  simp only [hr1, hr2, filterHandled_char h2r evs hid]
  congr 1
  refine List.filter_congr ?_
  intro e he
  rcases hn : e.id with _ | n
  · exact absurd (hid e he) (by simp [hn])
  · simp only [hn]
    have hiff : n ∈ h2r ↔ removableB oscMap evs e = true := by
      rw [hchar2 n, removableB_eq_true_iff]
      constructor
      · rintro (hn1 | ⟨e2, he2, hE2, hid2, c, hc2, hch⟩)
        · rw [hchar1 n] at hn1
          rcases hn1 with h | ⟨e2, he2, hid2, hm⟩
          · simp at h
          · have he2e : e2 = e :=
              nodup_id_inj evs hnodup e2 he2 e he (by rw [hid2, hn]) (by simp [hid2])
            subst he2e
            rcases hm with hm | hm
            · exact Or.inl hm
            · exact Or.inr (Or.inl hm)
        · have he2e : e2 = e :=
            nodup_id_inj evs hnodup e2 he2 e he (by rw [hid2, hn]) (by simp [hid2])
          subst he2e
          rw [hchar1 c] at hch
          rcases hch with h | ⟨e3, he3, hid3, hm3⟩
          · simp at h
          · have hstart := (hchain e2 he2 hE2).2 e3 he3 (by rw [hid3, hc2])
            rcases hm3 with hm3 | hm3
            · exact Or.inr (Or.inr ⟨hE2, c, hc2, e3, he3, hm3, hid3⟩)
            · rw [hm3] at hstart
              exact EventType.noConfusion hstart
      · rintro (hm | hI | ⟨hE, c, hc2, e3, he3, hm3, hid3⟩)
        · exact Or.inl ((hchar1 n).mpr (Or.inr ⟨e, he, hn, Or.inl hm⟩))
        · exact Or.inl ((hchar1 n).mpr (Or.inr ⟨e, he, hn, Or.inr hI⟩))
        · refine Or.inr ⟨e, he, hE, hn, c, hc2, ?_⟩
          exact (hchar1 c).mpr (Or.inr ⟨e3, he3, hid3, Or.inl hm3⟩)
    cases hb : removableB oscMap evs e with
    | true =>
      have : n ∈ h2r := hiff.mpr hb
      simp [this]
    | false =>
      have hnot : n ∉ h2r := fun h => Bool.false_ne_true (hb ▸ hiff.mp h)
      simp [hnot]

/-- Witness for C4: a hardware-targeting START with its END, plus a play event,
all with unique ids; the filter keeps all three. -/
theorem C4_witness :
    remove_handled_oscillator_events hwOscMap [exSetId, exEndId, exPlayId] =
      .ok ([exSetId, exEndId, exPlayId].filter fun e =>
        ! removableB hwOscMap [exSetId, exEndId, exPlayId] e) :=
  C4_dead_event_filter_exact hwOscMap [exSetId, exEndId, exPlayId]
    (by intro e he; fin_cases he <;> simp [exSetId, exEndId, exPlayId])
    (by simp [exSetId, exEndId, exPlayId])
    (by
      intro e he
      fin_cases he
      · intro h; simp [exSetId] at h
      · intro _
        refine ⟨by simp [exEndId], ?_⟩
        intro e2 he2
        fin_cases he2 <;> simp [exSetId, exEndId, exPlayId]
      · intro h; simp [exPlayId] at h)

theorem start_events_props (devices : List DeviceInfo) :
    ∀ e ∈ start_events devices,
      e.id = none ∧ e.event_type = .INITIAL_RESET_HW_OSCILLATOR_PHASE := by
  intro e he
  obtain ⟨d, _, hfd⟩ := List.mem_filterMap.mp he
  rcases hdt : d.device_type with _ | dt
  · simp only [hdt] at hfd
    exact Option.noConfusion hfd
  · simp only [hdt] at hfd
    by_cases hs : dt.supports_reset_osc_phase = true
    · rw [if_pos hs] at hfd
      have := Option.some.inj hfd
      rw [← this]
      exact ⟨rfl, rfl⟩
    · rw [if_neg hs] at hfd
      exact Option.noConfusion hfd

theorem calculate_osc_freq_sweep_no_selected (oscMap : String → Option OscillatorInfo)
    (evs : List Event) (h : ∀ e ∈ evs, freqSelect e.event_type = false) :
    calculate_osc_freq_sweep oscMap evs = evs := by
  have hfil : evs.enum.filter (fun ie => freqSelect ie.2.event_type) = [] := by
    rw [List.filter_eq_nil_iff]
    intro ie hie
    obtain ⟨hlt, hg⟩ := List.getElem?_eq_some.mp (List.mem_enum_iff_getElem?.mp hie)
    have : ie.2 ∈ evs := List.mem_iff_getElem.mpr ⟨ie.1, hlt, hg⟩
    simp [h ie.2 this]
  unfold calculate_osc_freq_sweep freqSorted
  rw [hfil]
  show evs.enum.map (fun ie => (lookupIdx ie.1 []).getD ie.2) = evs
  have : ∀ ie : Nat × Event, (lookupIdx ie.1 []).getD ie.2 = ie.2 := fun ie => rfl
  calc evs.enum.map (fun ie => (lookupIdx ie.1 []).getD ie.2)
      = evs.enum.map Prod.snd := by
        apply List.map_congr_left
        intro ie _
        rfl
    _ = evs := List.enum_map_snd evs

theorem filterHandled_error (h : List Nat) :
    ∀ (l : List Event), (∃ e ∈ l, e.id = none) →
    filterHandled h l = .error .keyError := by
  intro l
  induction l with
  | nil => intro hex; simp at hex
  | cons e rest ih =>
    intro hex
    unfold filterHandled
    rcases hn : e.id with _ | n
    · rfl
    · have hrest : ∃ e2 ∈ rest, e2.id = none := by
        rcases hex with ⟨e2, he2, hid2⟩
        rcases List.mem_cons.mp he2 with he21 | he21
        · rw [he21, hn] at hid2
          exact Option.noConfusion hid2
        · exact ⟨e2, he21, hid2⟩
      rw [ih hrest]

/-- C10: with an absent IR root and at least one device supporting
hardware-oscillator phase reset, `generate_event_list_from_ir` does not return
the synthetic start events: id assignment is skipped, the dead-event filter
reads the "id" entry of every event unconditionally, and the call raises
KeyError. -/
theorem C10_missing_root_raises_keyerror (oscMap : String → Option OscillatorInfo)
    (is_qa_dev : String → Bool) (twoPi tinysample : ℚ)
    (devices : List DeviceInfo) (idStart : Nat)
    (hdev : ∃ d ∈ devices, ∃ dt, d.device_type = some dt ∧
      dt.supports_reset_osc_phase = true) :
    generate_event_list_from_ir oscMap is_qa_dev twoPi tinysample devices none idStart =
      .error .keyError := by
  obtain ⟨d, hd, dt, hdt, hs⟩ := hdev
  unfold generate_event_list_from_ir
  set evs0 := start_events devices with hevs0
  set evs1 := evs0.map (fun e => { e with time := e.time * tinysample }) with hevs1
  have hprops : ∀ e ∈ evs1, e.id = none ∧
      e.event_type = .INITIAL_RESET_HW_OSCILLATOR_PHASE := by
    intro e he
    obtain ⟨e0, he0, hmap⟩ := List.mem_map.mp he
    obtain ⟨h1, h2⟩ := start_events_props devices e0 he0
    rw [← hmap]
    exact ⟨h1, h2⟩
  have hmem0 : ({ event_type := .INITIAL_RESET_HW_OSCILLATOR_PHASE, device_id := some d.uid, duration := some dt.reset_osc_duration, time := 0 } : Event) ∈ evs0 := by
    rw [hevs0]
    refine List.mem_filterMap.mpr ⟨d, hd, ?_⟩
    simp only [hdt]
    rw [if_pos hs]
  have hne : ∃ e ∈ evs1, e.id = none := by
    refine ⟨_, List.mem_map.mpr ⟨_, hmem0, rfl⟩, rfl⟩
  have hsweep : calculate_osc_freq_sweep oscMap evs1 = evs1 := by
    refine calculate_osc_freq_sweep_no_selected oscMap evs1 ?_
    intro e he
    rw [(hprops e he).2]
    rfl
  have hfreq : calculate_osc_freq oscMap evs1 = .error .keyError := by
    unfold calculate_osc_freq
    rw [hsweep]
    unfold remove_handled_oscillator_events
    have hm1 : markStartLoop oscMap evs1 [] = .ok [] := by
      refine markStartLoop_no_marks oscMap evs1 [] ?_ ?_
      · intro e he
        rw [(hprops e he).2]
        exact fun hc => EventType.noConfusion hc
      · intro e he hS
        rw [(hprops e he).2] at hS
        exact EventType.noConfusion hS
    have hm2 : markEndLoop evs1 [] = .ok [] := by
      refine markEndLoop_empty evs1 ?_
      intro e he hE
      rw [(hprops e he).2] at hE
      exact EventType.noConfusion hE
    simp only [hm1, hm2]
    exact filterHandled_error [] evs1 hne
  simp only [hfreq]

/-- Witness for C10: one device supporting hardware-oscillator phase reset. -/
theorem C10_witness :
    generate_event_list_from_ir swOscMap noQaDev 1 1 [exDevice] none 0 =
      .error .keyError :=
  C10_missing_root_raises_keyerror swOscMap noQaDev 1 1 [exDevice] 0
    ⟨exDevice, by simp, ⟨true, 80⟩, rfl, rfl⟩

/-! ## Lemmas about the phase resolution pass -/

theorem phaseStep_reset (oscMap : String → Option OscillatorInfo)
    (is_qa_dev : String → Bool) (twoPi : ℚ) (st : PhaseState) (ie : Nat × Event)
    (h : ie.2.event_type = .RESET_SW_OSCILLATOR_PHASE) :
    phaseStep oscMap is_qa_dev twoPi st ie =
      .ok ({ st with phase_reset_time := ie.2.time,
                     oscillator_phase_cumulative := fun _ => 0 }, ie) := by
  unfold phaseStep
  rw [if_pos h]

theorem phaseStep_set_hw (oscMap : String → Option OscillatorInfo)
    (is_qa_dev : String → Bool) (twoPi : ℚ) (st : PhaseState) (i : Nat) (e : Event)
    (o : OscillatorInfo) (v : ℚ)
    (hR : e.event_type ≠ .RESET_SW_OSCILLATOR_PHASE)
    (hset : e.set_oscillator_phase = some v)
    (ho : oscMap (sigOf e) = some o) (hhw : o.is_hardware = true) :
    phaseStep oscMap is_qa_dev twoPi st (i, e) = .error .assertionError := by
  have hhw2 : isHwOsc oscMap (sigOf e) = true := by simp [isHwOsc, ho, hhw]
  unfold phaseStep
  rw [if_neg hR]
  rcases hinc : e.increment_oscillator_phase with _ | incr <;>
    simp [hinc, hhw2, hset, ho, hhw]

theorem phaseStep_set_sw (oscMap : String → Option OscillatorInfo)
    (is_qa_dev : String → Bool) (twoPi : ℚ) (st : PhaseState) (i : Nat) (e : Event)
    (o : OscillatorInfo) (v : ℚ)
    (hR : e.event_type ≠ .RESET_SW_OSCILLATOR_PHASE)
    (hset : e.set_oscillator_phase = some v)
    (ho : oscMap (sigOf e) = some o) (hhw : o.is_hardware = false) :
    ∃ st2 e2, phaseStep oscMap is_qa_dev twoPi st (i, e) = .ok (st2, (i, e2)) ∧
      st2.oscillator_phase_cumulative (sigOf e) = v ∧
      st2.oscillator_phase_sets (sigOf e) = e.time ∧
      e2.set_oscillator_phase = none := by
  have hhw2 : isHwOsc oscMap (sigOf e) = false := by simp [isHwOsc, ho, hhw]
  unfold phaseStep
  rw [if_neg hR]
  rcases hinc : e.increment_oscillator_phase with _ | incr <;>
  by_cases hqa : is_qa_dev (sigOf e) = true <;>
  all_goals (
    simp [hinc, hhw2, hset, ho, hhw, hqa]
    try exact ⟨_, _, ⟨rfl, rfl⟩, by simp [updQ], by simp [updQ], rfl⟩)

theorem phaseRun_error_of_mem (oscMap : String → Option OscillatorInfo)
    (is_qa_dev : String → Bool) (twoPi : ℚ) (ie : Nat × Event)
    (herr : ∀ st2 : PhaseState, phaseStep oscMap is_qa_dev twoPi st2 ie =
      .error .assertionError) :
    ∀ (l : List (Nat × Event)) (st : PhaseState), ie ∈ l →
    ∀ res, phaseRun oscMap is_qa_dev twoPi l st ≠ .ok res := by
  intro l
  induction l with
  | nil => intro st h; simp at h
  | cons x rest ih =>
    intro st hmem res
    unfold phaseRun
    rcases List.mem_cons.mp hmem with hx | hx
    · rw [← hx, herr st]
      exact fun h => Except.noConfusion h
    · rcases hstep : phaseStep oscMap is_qa_dev twoPi st x with err | pr
      · simp only [hstep]
        exact fun h => Except.noConfusion h
      · obtain ⟨st1, ie1⟩ := pr
        simp only [hstep]
        rcases hrun : phaseRun oscMap is_qa_dev twoPi rest st1 with err2 | pr2
        · simp only [hrun]
          exact fun h => Except.noConfusion h
        · exact absurd hrun (ih st1 hx pr2)

/-- C7: an event carrying `set_oscillator_phase` on a hardware oscillator makes
the phase pass fail with the assertion (fatal, no result); on a software
oscillator the cumulative entry is overwritten with the given value
(superseding any same-event increment), the event time is recorded as the
signal's absolute-reference time, and the field is removed from the event. -/
theorem C7_set_phase_hardware_fatal (oscMap : String → Option OscillatorInfo)
    (is_qa_dev : String → Bool) (twoPi : ℚ) (st : PhaseState) (i : Nat) (e : Event)
    (o : OscillatorInfo) (v : ℚ)
    (hR : e.event_type ≠ .RESET_SW_OSCILLATOR_PHASE)
    (hset : e.set_oscillator_phase = some v)
    (ho : oscMap (sigOf e) = some o) :
    (o.is_hardware = true →
      phaseStep oscMap is_qa_dev twoPi st (i, e) = .error .assertionError ∧
      ∀ evs, (i, e) ∈ phaseSorted evs →
        ∀ out, calculate_osc_phase oscMap is_qa_dev twoPi evs ≠ .ok out) ∧
    (o.is_hardware = false →
      ∃ st2 e2, phaseStep oscMap is_qa_dev twoPi st (i, e) = .ok (st2, (i, e2)) ∧
        st2.oscillator_phase_cumulative (sigOf e) = v ∧
        st2.oscillator_phase_sets (sigOf e) = e.time ∧
        e2.set_oscillator_phase = none) := by
  constructor
  · intro hhw
    refine ⟨phaseStep_set_hw oscMap is_qa_dev twoPi st i e o v hR hset ho hhw, ?_⟩
    intro evs hmem out
    unfold calculate_osc_phase
    rcases hrun : phaseRun oscMap is_qa_dev twoPi (phaseSorted evs) initPhaseState with err | r
    · exact fun h => Except.noConfusion h
    · exfalso
      exact phaseRun_error_of_mem oscMap is_qa_dev twoPi (i, e)
        (fun st2 => phaseStep_set_hw oscMap is_qa_dev twoPi st2 i e o v hR hset ho hhw)
        (phaseSorted evs) initPhaseState hmem r hrun
  · intro hhw
    exact phaseStep_set_sw oscMap is_qa_dev twoPi st i e o v hR hset ho hhw

/-- Witness for C7: a play event at time 1 carrying an absolute phase set on a
software-oscillator signal. -/
theorem C7_witness :
    ((⟨false⟩ : OscillatorInfo).is_hardware = true →
      phaseStep swOscMap noQaDev 1 initPhaseState (0, exSetPhase) = .error .assertionError ∧
      ∀ evs, (0, exSetPhase) ∈ phaseSorted evs →
        ∀ out, calculate_osc_phase swOscMap noQaDev 1 evs ≠ .ok out) ∧
    ((⟨false⟩ : OscillatorInfo).is_hardware = false →
      ∃ st2 e2, phaseStep swOscMap noQaDev 1 initPhaseState (0, exSetPhase) = .ok (st2, (0, e2)) ∧
        st2.oscillator_phase_cumulative (sigOf exSetPhase) = 2 ∧
        st2.oscillator_phase_sets (sigOf exSetPhase) = exSetPhase.time ∧
        e2.set_oscillator_phase = none) :=
  C7_set_phase_hardware_fatal swOscMap noQaDev 1 initPhaseState 0 exSetPhase ⟨false⟩ 2
    (by simp [exSetPhase]) rfl rfl


theorem phaseStep_ok_nonreset (oscMap : String → Option OscillatorInfo)
    (is_qa_dev : String → Bool) (twoPi : ℚ) (st : PhaseState) (i : Nat) (e : Event)
    (st2 : PhaseState) (ie2 : Nat × Event)
    (hR : e.event_type ≠ .RESET_SW_OSCILLATOR_PHASE)
    (h : phaseStep oscMap is_qa_dev twoPi st (i, e) = .ok (st2, ie2)) :
    st2 = phaseStateUpd oscMap st e ∧ ie2.1 = i ∧
    ie2.2.oscillator_phase = some (
      if isHwOsc oscMap (sigOf e) then none
      else if is_qa_dev (sigOf e) then some 0
      else some ((e.time -
          max st2.phase_reset_time (st2.oscillator_phase_sets (sigOf e))) * twoPi *
          (e.oscillator_frequency.getD 0) + st2.oscillator_phase_cumulative (sigOf e))) := by
  unfold phaseStep at h
  rw [if_neg hR] at h
  rcases hinc : e.increment_oscillator_phase with _ | incr <;>
  rcases hset : e.set_oscillator_phase with _ | v <;>
  rcases hw : isHwOsc oscMap (sigOf e) with _ | _ <;>
  rcases hqa : is_qa_dev (sigOf e) with _ | _ <;>
  simp only [hinc, hset, hw, hqa, Bool.false_eq_true, if_true, if_false,
    ite_true, ite_false, reduceIte] at h
  all_goals try (
    rcases ho : oscMap (sigOf e) with _ | o <;> simp only [ho] at h)
  all_goals try exact Except.noConfusion h
  all_goals try (
    first
      | (have hohw : o.is_hardware = true := by simpa [isHwOsc, ho] using hw
         simp only [hohw, if_true, ite_true] at h
         exact Except.noConfusion h)
      | (have hohw : o.is_hardware = false := by simpa [isHwOsc, ho] using hw
         simp only [hohw, Bool.false_eq_true, if_false, ite_false] at h))
  all_goals (
    try simp only [not_false_eq_true, not_true_eq_false, if_true, if_false,
      ite_true, ite_false] at h
    have h2 := Except.ok.inj h
    rw [Prod.mk.injEq] at h2
    obtain ⟨hst, hie⟩ := h2
    refine ⟨?_, ?_, ?_⟩
    · rw [← hst]
      simp [phaseStateUpd, hinc, hset, hw]
    · rw [← hie]
    · rw [← hie, ← hst]
      simp [hw, hqa])

theorem phaseRun_ok_elem (oscMap : String → Option OscillatorInfo)
    (is_qa_dev : String → Bool) (twoPi : ℚ) :
    ∀ (l : List (Nat × Event)) (st stf : PhaseState) (out : List (Nat × Event)),
    phaseRun oscMap is_qa_dev twoPi l st = .ok (stf, out) →
    out.length = l.length ∧
    ∀ k (hk : k < l.length), ∃ stk stk2 oek,
      phaseRun oscMap is_qa_dev twoPi (l.take k) st = .ok (stk, out.take k) ∧
      out[k]? = some oek ∧
      phaseStep oscMap is_qa_dev twoPi stk (l.get ⟨k, hk⟩) = .ok (stk2, oek) ∧
      phaseRun oscMap is_qa_dev twoPi (l.take (k + 1)) st = .ok (stk2, out.take (k + 1)) := by
  intro l
  induction l with
  | nil =>
    intro st stf out h
    unfold phaseRun at h
    have h2 := Except.ok.inj h
    rw [Prod.mk.injEq] at h2
    refine ⟨by rw [← h2.2], ?_⟩
    intro k hk
    exact absurd hk (by simp)
  | cons x rest ih =>
    intro st stf out h
    unfold phaseRun at h
    rcases hstep : phaseStep oscMap is_qa_dev twoPi st x with err | pr
    · rw [hstep] at h
      exact Except.noConfusion h
    · obtain ⟨st1, ie1⟩ := pr
      simp only [hstep] at h
      rcases hrun : phaseRun oscMap is_qa_dev twoPi rest st1 with err2 | pr2
      · rw [hrun] at h
        exact Except.noConfusion h
      · obtain ⟨st2x, out2⟩ := pr2
        simp only [hrun] at h
        have h2 := Except.ok.inj h
        rw [Prod.mk.injEq] at h2
        obtain ⟨hstf, hout⟩ := h2
        subst hout
        obtain ⟨ihlen, ihelem⟩ := ih st1 stf out2 (by rw [hrun, hstf])
        refine ⟨by simp [ihlen], ?_⟩
        intro k hk
        match k with
        | 0 =>
          refine ⟨st, st1, ie1, rfl, by simp, ?_, ?_⟩
          · exact hstep
          · show phaseRun oscMap is_qa_dev twoPi [x] st = _
            unfold phaseRun
            simp only [hstep]
            rfl
        | Nat.succ k2 =>
          have hk2 : k2 < rest.length := by simpa using hk
          obtain ⟨stk, stk2, oek, ht1, ht2, ht3, ht4⟩ := ihelem k2 hk2
          refine ⟨stk, stk2, oek, ?_, ?_, ?_, ?_⟩
          · simp only [List.take_succ_cons]
            unfold phaseRun
            simp only [hstep, ht1]
          · simpa using ht2
          · exact ht3
          · simp only [List.take_succ_cons]
            unfold phaseRun
            simp only [hstep, ht4]

theorem phaseStateUpd_reset_time (oscMap : String → Option OscillatorInfo)
    (st : PhaseState) (e : Event) :
    (phaseStateUpd oscMap st e).phase_reset_time = st.phase_reset_time := by
  unfold phaseStateUpd
  rcases e.increment_oscillator_phase with _ | incr <;>
  rcases e.set_oscillator_phase with _ | v <;>
  by_cases hw : isHwOsc oscMap (sigOf e) = true <;>
  simp [hw]

theorem phaseStateUpd_cum (oscMap : String → Option OscillatorInfo)
    (st : PhaseState) (e : Event) (s : String) :
    (phaseStateUpd oscMap st e).oscillator_phase_cumulative s =
      (if sigOf e = s then
        (let c1 := match e.increment_oscillator_phase with
          | some incr => if isHwOsc oscMap s then st.oscillator_phase_cumulative s
              else st.oscillator_phase_cumulative s + incr
          | none => st.oscillator_phase_cumulative s
         match e.set_oscillator_phase with
         | some v => v
         | none => c1)
      else st.oscillator_phase_cumulative s) := by
  unfold phaseStateUpd
  by_cases hs : sigOf e = s
  · rw [hs]
    rcases hinc : e.increment_oscillator_phase with _ | incr <;>
    rcases hset : e.set_oscillator_phase with _ | v <;>
    by_cases hw : isHwOsc oscMap s = true <;>
    simp [hinc, hset, hw, updQ]
  · have hs2 : ¬ (s = sigOf e) := fun hcon => hs hcon.symm
    rcases hinc : e.increment_oscillator_phase with _ | incr <;>
    rcases hset : e.set_oscillator_phase with _ | v <;>
    by_cases hw : isHwOsc oscMap (sigOf e) = true <;>
    simp [hinc, hset, hw, updQ, hs, hs2]

theorem phaseStateUpd_sets (oscMap : String → Option OscillatorInfo)
    (st : PhaseState) (e : Event) (s : String) :
    (phaseStateUpd oscMap st e).oscillator_phase_sets s =
      (if sigOf e = s ∧ e.set_oscillator_phase.isSome then e.time
       else st.oscillator_phase_sets s) := by
  unfold phaseStateUpd
  by_cases hs : sigOf e = s
  · rcases hinc : e.increment_oscillator_phase with _ | incr <;>
    rcases hset : e.set_oscillator_phase with _ | v <;>
    by_cases hw : isHwOsc oscMap s = true <;>
    simp [hinc, hset, hw, hs, updQ]
  · have hs2 : ¬ (s = sigOf e) := fun hcon => hs hcon.symm
    rcases hinc : e.increment_oscillator_phase with _ | incr <;>
    rcases hset : e.set_oscillator_phase with _ | v <;>
    by_cases hw : isHwOsc oscMap (sigOf e) = true <;>
    simp [hinc, hset, hw, hs, hs2, updQ]

theorem phaseRun_state (oscMap : String → Option OscillatorInfo)
    (is_qa_dev : String → Bool) (twoPi : ℚ) :
    ∀ (l : List (Nat × Event)) (st stf : PhaseState) (out : List (Nat × Event)),
    phaseRun oscMap is_qa_dev twoPi l st = .ok (stf, out) →
    stf.phase_reset_time = (l.map Prod.snd).foldl
      (fun t e => if e.event_type = .RESET_SW_OSCILLATOR_PHASE then e.time else t)
      st.phase_reset_time ∧
    (∀ s, stf.oscillator_phase_cumulative s = (l.map Prod.snd).foldl
      (fun c e =>
        if e.event_type = .RESET_SW_OSCILLATOR_PHASE then 0
        else if sigOf e = s then
          let c1 :=
            match e.increment_oscillator_phase with
            | some incr => if isHwOsc oscMap s then c else c + incr
            | none => c
          match e.set_oscillator_phase with
          | some v => v
          | none => c1
        else c) (st.oscillator_phase_cumulative s)) ∧
    (∀ s, stf.oscillator_phase_sets s = (l.map Prod.snd).foldl
      (fun t e => if e.event_type ≠ .RESET_SW_OSCILLATOR_PHASE ∧ sigOf e = s ∧
          e.set_oscillator_phase.isSome then e.time else t)
      (st.oscillator_phase_sets s)) := by
  intro l
  induction l with
  | nil =>
    intro st stf out h
    unfold phaseRun at h
    have h2 := Except.ok.inj h
    rw [Prod.mk.injEq] at h2
    rw [← h2.1]
    exact ⟨rfl, fun s => rfl, fun s => rfl⟩
  | cons x rest ih =>
    intro st stf out h
    unfold phaseRun at h
    rcases hstep : phaseStep oscMap is_qa_dev twoPi st x with err | pr
    · rw [hstep] at h
      exact Except.noConfusion h
    · obtain ⟨st1, ie1⟩ := pr
      simp only [hstep] at h
      rcases hrun : phaseRun oscMap is_qa_dev twoPi rest st1 with err2 | pr2
      · rw [hrun] at h
        exact Except.noConfusion h
      · obtain ⟨st2x, out2⟩ := pr2
        simp only [hrun] at h
        have h2 := Except.ok.inj h
        rw [Prod.mk.injEq] at h2
        obtain ⟨hstf, hout⟩ := h2
        obtain ⟨ih1, ih2, ih3⟩ := ih st1 stf out2 (by rw [hrun, hstf])
        by_cases hR : x.2.event_type = .RESET_SW_OSCILLATOR_PHASE
        · have hx := phaseStep_reset oscMap is_qa_dev twoPi st x hR
          rw [hx] at hstep
          have h3 := Except.ok.inj hstep
          rw [Prod.mk.injEq] at h3
          have hst1 := h3.1
          refine ⟨?_, ?_, ?_⟩
          · simp only [List.map_cons, List.foldl_cons]
            rw [ih1]
            congr 1
            rw [← hst1, if_pos hR]
          · intro s
            simp only [List.map_cons, List.foldl_cons]
            rw [ih2 s]
            congr 1
            rw [← hst1, if_pos hR]
          · intro s
            simp only [List.map_cons, List.foldl_cons]
            rw [ih3 s]
            congr 1
            rw [← hst1, if_neg (by simp [hR])]
        · obtain ⟨hst1, _, _⟩ := phaseStep_ok_nonreset oscMap is_qa_dev twoPi st x.1 x.2
            st1 ie1 hR hstep
          refine ⟨?_, ?_, ?_⟩
          · simp only [List.map_cons, List.foldl_cons]
            rw [ih1]
            congr 1
            rw [hst1, phaseStateUpd_reset_time, if_neg hR]
          · intro s
            simp only [List.map_cons, List.foldl_cons]
            rw [ih2 s]
            congr 1
            rw [hst1, phaseStateUpd_cum, if_neg hR]
          · intro s
            simp only [List.map_cons, List.foldl_cons]
            rw [ih3 s]
            congr 1
            rw [hst1, phaseStateUpd_sets]
            by_cases hc : sigOf x.2 = s ∧ x.2.set_oscillator_phase.isSome = true
            · rw [if_pos hc, if_pos ⟨hR, hc.1, hc.2⟩]
            · rw [if_neg hc, if_neg (fun hc2 => hc ⟨hc2.2.1, hc2.2.2⟩)]

theorem phaseRun_map_fst (oscMap : String → Option OscillatorInfo)
    (is_qa_dev : String → Bool) (twoPi : ℚ) :
    ∀ (l : List (Nat × Event)) (st stf : PhaseState) (out : List (Nat × Event)),
    phaseRun oscMap is_qa_dev twoPi l st = .ok (stf, out) →
    out.map Prod.fst = l.map Prod.fst := by
  intro l
  induction l with
  | nil =>
    intro st stf out h
    unfold phaseRun at h
    have h2 := Except.ok.inj h
    rw [Prod.mk.injEq] at h2
    rw [← h2.2]
  | cons x rest ih =>
    intro st stf out h
    unfold phaseRun at h
    rcases hstep : phaseStep oscMap is_qa_dev twoPi st x with err | pr
    · rw [hstep] at h
      exact Except.noConfusion h
    · obtain ⟨st1, ie1⟩ := pr
      simp only [hstep] at h
      rcases hrun : phaseRun oscMap is_qa_dev twoPi rest st1 with err2 | pr2
      · rw [hrun] at h
        exact Except.noConfusion h
      · obtain ⟨st2x, out2⟩ := pr2
        simp only [hrun] at h
        have h2 := Except.ok.inj h
        rw [Prod.mk.injEq] at h2
        obtain ⟨hstf, hout⟩ := h2
        rw [← hout]
        have hfst : ie1.1 = x.1 := by
          by_cases hR : x.2.event_type = .RESET_SW_OSCILLATOR_PHASE
          · have hx := phaseStep_reset oscMap is_qa_dev twoPi st x hR
            rw [hx] at hstep
            have h3 := Except.ok.inj hstep
            rw [Prod.mk.injEq] at h3
            rw [← h3.2]
          · exact (phaseStep_ok_nonreset oscMap is_qa_dev twoPi st x.1 x.2 st1 ie1
              hR hstep).2.1
        simp only [List.map_cons, hfst]
        rw [ih st1 st2x out2 hrun]

theorem mem_phaseSorted (evs : List Event) (ie : Nat × Event)
    (h : ie ∈ phaseSorted evs) : evs[ie.1]? = some ie.2 := by
  have h2 : ie ∈ evs.enum.filter (fun x => phaseSelect x.2.event_type) :=
    (List.perm_insertionSort phaseLe _).mem_iff.mp h
  exact List.mem_enum_iff_getElem?.mp (List.mem_of_mem_filter h2)

theorem phaseSorted_keys_nodup (evs : List Event) :
    ((phaseSorted evs).map Prod.fst).Nodup := by
  have hperm : (phaseSorted evs).Perm (evs.enum.filter fun ie => phaseSelect ie.2.event_type) :=
    List.perm_insertionSort _ _
  have hmap := hperm.map Prod.fst
  have hsub : ((evs.enum.filter fun ie => phaseSelect ie.2.event_type).map Prod.fst).Sublist
      (evs.enum.map Prod.fst) := (List.filter_sublist _).map _
  have hnd : ((evs.enum.filter fun ie => phaseSelect ie.2.event_type).map Prod.fst).Nodup := by
    refine hsub.nodup ?_
    rw [List.enum_map_fst]
    exact List.nodup_range _
  exact hmap.nodup_iff.mpr hnd

/-- C2: after the phase resolution pass every selected play/delay/acquire
event has `oscillator_phase` set to: None for a hardware oscillator; 0 for a
software oscillator on a QA-class device; otherwise
(time − max(last global reset time, signal's last absolute-set time)) · twoPi ·
frequency + cumulative increment, where twoPi stands for the float
`2.0 * math.pi`, the frequency is the event's previously stamped
`oscillator_frequency` (0 when absent), and the running-state quantities are
the specification folds over the sorted selection up to and including the
event itself. -/
theorem C2_phase_formula (oscMap : String → Option OscillatorInfo)
    (is_qa_dev : String → Bool) (twoPi : ℚ) (evs out : List Event)
    (h : calculate_osc_phase oscMap is_qa_dev twoPi evs = .ok out)
    (k : Nat) (hk : k < (phaseSorted evs).length)
    (hR : ((phaseSorted evs).get ⟨k, hk⟩).2.event_type ≠ .RESET_SW_OSCILLATOR_PHASE) :
    ∃ e2 : Event, out[((phaseSorted evs).get ⟨k, hk⟩).1]? = some e2 ∧
      e2.oscillator_phase = some (
        if isHwOsc oscMap (sigOf ((phaseSorted evs).get ⟨k, hk⟩).2) then none
        else if is_qa_dev (sigOf ((phaseSorted evs).get ⟨k, hk⟩).2) then some 0
        else some (
          (((phaseSorted evs).get ⟨k, hk⟩).2.time -
            max (specResetTime (phaseUpTo evs (k + 1)))
              (specSetTime (sigOf ((phaseSorted evs).get ⟨k, hk⟩).2)
                (phaseUpTo evs (k + 1)))) * twoPi *
          (((phaseSorted evs).get ⟨k, hk⟩).2.oscillator_frequency.getD 0) +
          specCum oscMap (sigOf ((phaseSorted evs).get ⟨k, hk⟩).2)
            (phaseUpTo evs (k + 1)))) := by
  unfold calculate_osc_phase at h
  rcases hrun : phaseRun oscMap is_qa_dev twoPi (phaseSorted evs) initPhaseState with err | r
  · rw [hrun] at h
    exact Except.noConfusion h
  · obtain ⟨stf, mods⟩ := r
    simp only [hrun] at h
    have hout : out = evs.enum.map fun p => (lookupIdx p.1 mods).getD p.2 :=
      (Except.ok.inj h).symm
    obtain ⟨hlen, helem⟩ := phaseRun_ok_elem oscMap is_qa_dev twoPi (phaseSorted evs)
      initPhaseState stf mods hrun
    obtain ⟨stk, stk2, oek, ht1, ht2, ht3, ht4⟩ := helem k hk
    obtain ⟨hst2, hidx, hphase⟩ := phaseStep_ok_nonreset oscMap is_qa_dev twoPi stk
      ((phaseSorted evs).get ⟨k, hk⟩).1 ((phaseSorted evs).get ⟨k, hk⟩).2 stk2 oek hR ht3
    obtain ⟨hs1, hs2, hs3⟩ := phaseRun_state oscMap is_qa_dev twoPi
      ((phaseSorted evs).take (k + 1)) initPhaseState stk2 (mods.take (k + 1)) ht4
    have hmem : oek ∈ mods := by
      obtain ⟨hlt, hg⟩ := List.getElem?_eq_some.mp ht2
      exact List.mem_iff_getElem.mpr ⟨k, hlt, hg⟩
    have hmem2 : ((((phaseSorted evs).get ⟨k, hk⟩).1, oek.2)) ∈ mods := by
      rw [← hidx]
      exact hmem
    have hnodup : (mods.map Prod.fst).Nodup := by
      rw [phaseRun_map_fst oscMap is_qa_dev twoPi (phaseSorted evs) initPhaseState stf mods hrun]
      exact phaseSorted_keys_nodup evs
    have hlook := lookupIdx_eq_some_of_mem _ _ _ hnodup hmem2
    have hev : evs[((phaseSorted evs).get ⟨k, hk⟩).1]? =
        some ((phaseSorted evs).get ⟨k, hk⟩).2 :=
      mem_phaseSorted evs _ (List.get_mem _ _ hk)
    refine ⟨oek.2, ?_, ?_⟩
    · rw [hout, List.getElem?_map, List.getElem?_enum, hev]
      rw [List.get_eq_getElem] at hlook
      simp [hlook]
    · rw [hphase]
      congr 1
      rw [hs1, hs2 (sigOf ((phaseSorted evs).get ⟨k, hk⟩).2),
        hs3 (sigOf ((phaseSorted evs).get ⟨k, hk⟩).2)]
      rfl

/-- Witness for C2: one play event at time 2 with stamped frequency 3 on a
software-oscillator, non-QA signal; with twoPi instantiated to 1 the resolved
phase is (2 − 0)·1·3 + 0 = 6. -/
theorem C2_witness :
    calculate_osc_phase swOscMap noQaDev 1 [exPlayF] =
      .ok [{ exPlayF with oscillator_phase := some (some 6) }] ∧
    0 < (phaseSorted [exPlayF]).length ∧
    ∃ e2 : Event,
      ([{ exPlayF with oscillator_phase := some (some 6) }] : List Event)[0]? = some e2 ∧
      e2.oscillator_phase = some (some 6) := by
  have hsorted : phaseSorted [exPlayF] = [(0, exPlayF)] := by
    simp [phaseSorted, exPlayF, phaseSelect, List.insertionSort, List.orderedInsert,
      List.enum, List.enumFrom]
  have hok : calculate_osc_phase swOscMap noQaDev 1 [exPlayF] =
      .ok [{ exPlayF with oscillator_phase := some (some 6) }] := by
    unfold calculate_osc_phase
    rw [hsorted]
    norm_num [phaseRun, phaseStep, initPhaseState, exPlayF, sigOf, isHwOsc, swOscMap,
      noQaDev, lookupIdx, List.enum, List.enumFrom]
    rw [if_neg (fun hcon => EventType.noConfusion hcon)]
    rfl
  have hk0 : 0 < (phaseSorted [exPlayF]).length := by
    rw [hsorted]
    simp
  have hR0 : ((phaseSorted [exPlayF]).get ⟨0, hk0⟩).2.event_type ≠
      .RESET_SW_OSCILLATOR_PHASE := by
    simp only [List.get_eq_getElem, hsorted]
    simp [exPlayF]
  obtain ⟨e2, h1, h2⟩ := C2_phase_formula swOscMap noQaDev 1 [exPlayF] _ hok 0 hk0 hR0
  refine ⟨hok, hk0, e2, ?_, ?_⟩
  · have hidx0 : ((phaseSorted [exPlayF]).get ⟨0, hk0⟩).1 = 0 := by
      simp [List.get_eq_getElem, hsorted]
    rwa [hidx0] at h1
  · rw [h2]
    simp only [List.get_eq_getElem, phaseUpTo, hsorted]
    norm_num [exPlayF, sigOf, isHwOsc, swOscMap, noQaDev,
      specResetTime, specSetTime, specCum]
    rw [if_neg (fun hcon => EventType.noConfusion hcon)]
    norm_num

theorem resetFold_ge (t0 : ℚ) :
    ∀ (P : List Event), List.Pairwise (fun a b : Event => a.time ≤ b.time) P →
    (∃ e ∈ P, e.event_type = .RESET_SW_OSCILLATOR_PHASE ∧ e.time = t0) →
    ∀ init : ℚ, t0 ≤ P.foldl
      (fun t e => if e.event_type = .RESET_SW_OSCILLATOR_PHASE then e.time else t) init := by
  intro P
  induction P using List.reverseRecOn with
  | nil => intro _ hex; simp at hex
  | append_singleton P a ih =>
    intro hsorted hex init
    rw [List.foldl_append]
    simp only [List.foldl_cons, List.foldl_nil]
    by_cases hA : a.event_type = .RESET_SW_OSCILLATOR_PHASE
    · rw [if_pos hA]
      obtain ⟨w, hw, hwR, hwt⟩ := hex
      rcases List.mem_append.mp hw with hw1 | hw1
      · have := (List.pairwise_append.mp hsorted).2.2 w hw1 a (by simp)
        rw [hwt] at this
        exact this
      · have : w = a := by simpa using hw1
        rw [← this, hwt]
    · rw [if_neg hA]
      obtain ⟨w, hw, hwR, hwt⟩ := hex
      rcases List.mem_append.mp hw with hw1 | hw1
      · exact ih (List.pairwise_append.mp hsorted).1 ⟨w, hw1, hwR, hwt⟩ init
      · exfalso
        have : w = a := by simpa using hw1
        rw [this] at hwR
        exact hA hwR

/-- C5: a RESET_SW_OSCILLATOR_PHASE event records its own time as the single
global reset time and zeroes every signal's cumulative increment (also for
signals it does not mention) while leaving the absolute-set times; at a tied
timestamp, reset has strictly lower priority than play/delay/acquire so it is
applied first; hence every event processed after a reset computes its phase
reference max(reset time, set time) at a value at least the reset time. -/
theorem C5_reset_global_and_first (oscMap : String → Option OscillatorInfo)
    (is_qa_dev : String → Bool) (twoPi : ℚ) :
    (∀ (st : PhaseState) (ie : Nat × Event),
      ie.2.event_type = .RESET_SW_OSCILLATOR_PHASE →
      ∃ st2, phaseStep oscMap is_qa_dev twoPi st ie = .ok (st2, ie) ∧
        st2.phase_reset_time = ie.2.time ∧
        (∀ s, st2.oscillator_phase_cumulative s = 0) ∧
        (∀ s, st2.oscillator_phase_sets s = st.oscillator_phase_sets s)) ∧
    (phase_priority .RESET_SW_OSCILLATOR_PHASE < phase_priority .PLAY_START ∧
     phase_priority .RESET_SW_OSCILLATOR_PHASE < phase_priority .DELAY_START ∧
     phase_priority .RESET_SW_OSCILLATOR_PHASE < phase_priority .ACQUIRE_START) ∧
    (∀ (evs out : List Event), calculate_osc_phase oscMap is_qa_dev twoPi evs = .ok out →
      ∀ k, ∀ hk : k < (phaseSorted evs).length, ∀ j, ∀ hj : j < k, ∀ t0 : ℚ,
      ((phaseSorted evs).get ⟨j, by omega⟩).2.event_type = .RESET_SW_OSCILLATOR_PHASE →
      ((phaseSorted evs).get ⟨j, by omega⟩).2.time = t0 →
      ∃ stk out1,
        phaseRun oscMap is_qa_dev twoPi ((phaseSorted evs).take k) initPhaseState =
          .ok (stk, out1) ∧
        t0 ≤ stk.phase_reset_time ∧
        ∀ s, t0 ≤ max stk.phase_reset_time (stk.oscillator_phase_sets s)) := by
  refine ⟨?_, ⟨by decide, by decide, by decide⟩, ?_⟩
  · intro st ie hR
    exact ⟨_, phaseStep_reset oscMap is_qa_dev twoPi st ie hR, rfl, fun s => rfl, fun s => rfl⟩
  · intro evs out h k hk j hj t0 hjR hjt
    unfold calculate_osc_phase at h
    rcases hrun : phaseRun oscMap is_qa_dev twoPi (phaseSorted evs) initPhaseState with err | r
    · rw [hrun] at h
      exact Except.noConfusion h
    · obtain ⟨stf, mods⟩ := r
      obtain ⟨hlen, helem⟩ := phaseRun_ok_elem oscMap is_qa_dev twoPi (phaseSorted evs)
        initPhaseState stf mods hrun
      obtain ⟨stk, stk2, oek, ht1, ht2, ht3, ht4⟩ := helem k hk
      have hge : t0 ≤ stk.phase_reset_time := by
        obtain ⟨hs1, _, _⟩ := phaseRun_state oscMap is_qa_dev twoPi
          ((phaseSorted evs).take k) initPhaseState stk (mods.take k) ht1
        rw [hs1]
        have hjlen : j < (phaseSorted evs).length := by omega
        have hpairs : List.Pairwise (fun a b : Event => a.time ≤ b.time)
            (((phaseSorted evs).take k).map Prod.snd) := by
          refine List.Pairwise.map Prod.snd ?_
            ((List.sorted_insertionSort phaseLe _).sublist (List.take_sublist k _))
          intro a b hab
          rcases hab with h1 | ⟨h1, _⟩
          · exact le_of_lt h1
          · exact le_of_eq h1
        have hmemj : ((phaseSorted evs).get ⟨j, hjlen⟩).2 ∈
            (((phaseSorted evs).take k).map Prod.snd) := by
          refine List.mem_map.mpr ⟨(phaseSorted evs).get ⟨j, hjlen⟩, ?_, rfl⟩
          refine List.mem_iff_getElem.mpr ⟨j, ?_, ?_⟩
          · rw [List.length_take]
            omega
          · rw [List.getElem_take, List.get_eq_getElem]
        exact resetFold_ge t0 _ hpairs
          ⟨_, hmemj, hjR, hjt⟩ initPhaseState.phase_reset_time
      exact ⟨stk, mods.take k, ht1, hge,
        fun s => le_trans hge (le_max_left _ _)⟩

theorem C5_witness :
    ∃ stk out1,
      phaseRun swOscMap noQaDev 1 ((phaseSorted [exPlay, exReset]).take 1) initPhaseState =
        .ok (stk, out1) ∧
      (1:ℚ) ≤ stk.phase_reset_time ∧
      ∀ s, (1:ℚ) ≤ max stk.phase_reset_time (stk.oscillator_phase_sets s) := by
  have hsorted : phaseSorted [exPlay, exReset] = [(1, exReset), (0, exPlay)] := by
    simp [phaseSorted, exPlay, exReset, phaseSelect, List.insertionSort,
      List.orderedInsert, List.enum, List.enumFrom, phaseLe, phase_priority]
  have hok : calculate_osc_phase swOscMap noQaDev 1 [exPlay, exReset] =
      .ok [{ exPlay with oscillator_phase := some (some 0) }, exReset] := by
    unfold calculate_osc_phase
    rw [hsorted]
    norm_num [phaseRun, phaseStep, initPhaseState, exPlay, exReset, sigOf, isHwOsc,
      swOscMap, noQaDev, lookupIdx, List.enum, List.enumFrom]
    rw [if_neg (fun hcon => EventType.noConfusion hcon)]
    norm_num [lookupIdx]
  have hk : 1 < (phaseSorted [exPlay, exReset]).length := by
    rw [hsorted]; simp
  have hjR : ((phaseSorted [exPlay, exReset]).get ⟨0, by omega⟩).2.event_type =
      .RESET_SW_OSCILLATOR_PHASE := by
    simp only [List.get_eq_getElem, hsorted]
    simp [exReset]
  have hjt : ((phaseSorted [exPlay, exReset]).get ⟨0, by omega⟩).2.time = 1 := by
    simp only [List.get_eq_getElem, hsorted]
    simp [exReset]
  exact (C5_reset_global_and_first swOscMap noQaDev 1).2.2 [exPlay, exReset] _ hok
    1 hk 0 (by norm_num) 1 hjR hjt

theorem specLastWrite_cons_gt (t : ℚ) (p : Int × ℚ) (M : List (Int × ℚ))
    (hp : ¬((p.1 : ℚ) ≤ t)) : specLastWrite t (p :: M) = specLastWrite t M := by
  simp only [specLastWrite]
  rw [if_neg hp]

theorem specLastWrite_cons_le_some (t : ℚ) (p : Int × ℚ) (M : List (Int × ℚ))
    (q : Int × ℚ) (hp : (p.1 : ℚ) ≤ t) (hq : specLastWrite t M = some q) :
    specLastWrite t (p :: M) = if p.1 ≤ q.1 then some q else some p := by
  simp only [specLastWrite, hq]
  rw [if_pos hp]

theorem specLastWrite_cons_le_none (t : ℚ) (p : Int × ℚ) (M : List (Int × ℚ))
    (hp : (p.1 : ℚ) ≤ t) (hq : specLastWrite t M = none) :
    specLastWrite t (p :: M) = some p := by
  simp only [specLastWrite, hq]
  rw [if_pos hp]

theorem nearestPrev_cons_gt (t : ℚ) (p : Int × ℚ) (M : List (Int × ℚ))
    (hp : ¬((p.1 : ℚ) ≤ t)) : nearestPrev t (p :: M) = none := by
  simp only [nearestPrev]
  rw [if_neg hp]

theorem nearestPrev_cons_some (t : ℚ) (p : Int × ℚ) (M : List (Int × ℚ)) (w : ℚ)
    (hp : (p.1 : ℚ) ≤ t) (hw : nearestPrev t M = some w) :
    nearestPrev t (p :: M) = some w := by
  simp only [nearestPrev, hw]
  rw [if_pos hp]

theorem nearestPrev_cons_none (t : ℚ) (p : Int × ℚ) (M : List (Int × ℚ))
    (hp : (p.1 : ℚ) ≤ t) (hw : nearestPrev t M = none) :
    nearestPrev t (p :: M) = some p.2 := by
  simp only [nearestPrev, hw]
  rw [if_pos hp]

theorem specLastWrite_cons_congr (t : ℚ) (b : Int × ℚ) (X Y : List (Int × ℚ))
    (h : specLastWrite t X = specLastWrite t Y) :
    specLastWrite t (b :: X) = specLastWrite t (b :: Y) := by
  by_cases hb : ((b.1 : ℚ) ≤ t)
  · rcases hY : specLastWrite t Y with _ | q
    · rw [specLastWrite_cons_le_none t b X hb (h.trans hY),
        specLastWrite_cons_le_none t b Y hb hY]
    · rw [specLastWrite_cons_le_some t b X q hb (h.trans hY),
        specLastWrite_cons_le_some t b Y q hb hY]
  · rw [specLastWrite_cons_gt t b X hb, specLastWrite_cons_gt t b Y hb, h]

theorem specLastWrite_cons_comm (t : ℚ) (b p : Int × ℚ) (h : b.1 < p.1)
    (M : List (Int × ℚ)) :
    specLastWrite t (b :: p :: M) = specLastWrite t (p :: b :: M) := by
  by_cases hp : ((p.1 : ℚ) ≤ t)
  · have hb : ((b.1 : ℚ) ≤ t) :=
      le_trans (le_of_lt (show (b.1 : ℚ) < (p.1 : ℚ) by exact_mod_cast h)) hp
    rcases hM : specLastWrite t M with _ | q
    · have h1 := specLastWrite_cons_le_none t p M hp hM
      have h2 := specLastWrite_cons_le_none t b M hb hM
      rw [specLastWrite_cons_le_some t b (p :: M) p hb h1, if_pos (le_of_lt h),
        specLastWrite_cons_le_some t p (b :: M) b hp h2, if_neg (not_le.mpr h)]
    · have h1 := specLastWrite_cons_le_some t p M q hp hM
      have h2 := specLastWrite_cons_le_some t b M q hb hM
      by_cases hq : p.1 ≤ q.1
      · have hbq : b.1 ≤ q.1 := le_trans (le_of_lt h) hq
        rw [specLastWrite_cons_le_some t b (p :: M) q hb (by rw [h1, if_pos hq]),
          if_pos hbq,
          specLastWrite_cons_le_some t p (b :: M) q hp (by rw [h2, if_pos hbq]),
          if_pos hq]
      · by_cases hbq : b.1 ≤ q.1
        · rw [specLastWrite_cons_le_some t b (p :: M) p hb (by rw [h1, if_neg hq]),
            if_pos (le_of_lt h),
            specLastWrite_cons_le_some t p (b :: M) q hp (by rw [h2, if_pos hbq]),
            if_neg hq]
        · rw [specLastWrite_cons_le_some t b (p :: M) p hb (by rw [h1, if_neg hq]),
            if_pos (le_of_lt h),
            specLastWrite_cons_le_some t p (b :: M) b hp (by rw [h2, if_neg hbq]),
            if_neg (not_le.mpr h)]
  · by_cases hb : ((b.1 : ℚ) ≤ t)
    · rw [specLastWrite_cons_gt t p (b :: M) hp]
      exact specLastWrite_cons_congr t b (p :: M) M (specLastWrite_cons_gt t p M hp)
    · rw [specLastWrite_cons_gt t b (p :: M) hb, specLastWrite_cons_gt t p M hp,
        specLastWrite_cons_gt t p (b :: M) hp, specLastWrite_cons_gt t b M hb]

theorem specLastWrite_orderedInsert (t : ℚ) (p : Int × ℚ) :
    ∀ M, specLastWrite t (List.orderedInsert serLe p M) = specLastWrite t (p :: M) := by
  intro M
  induction M with
  | nil => rfl
  | cons b l ih =>
    rw [List.orderedInsert]
    by_cases hr : serLe p b
    · rw [if_pos hr]
    · rw [if_neg hr]
      have hbp : b.1 < p.1 := not_le.mp (show ¬(p.1 ≤ b.1) from hr)
      exact (specLastWrite_cons_congr t b _ _ ih).trans
        (specLastWrite_cons_comm t b p hbp l)

theorem specLastWrite_insertionSort (t : ℚ) :
    ∀ L, specLastWrite t (List.insertionSort serLe L) = specLastWrite t L := by
  intro L
  induction L with
  | nil => rfl
  | cons x xs ih =>
    rw [List.insertionSort, specLastWrite_orderedInsert t x _]
    exact specLastWrite_cons_congr t x _ _ ih

theorem specLastWrite_none_iff (t : ℚ) :
    ∀ M : List (Int × ℚ), specLastWrite t M = none ↔ ∀ x ∈ M, t < (x.1 : ℚ) := by
  intro M
  induction M with
  | nil => simp [specLastWrite]
  | cons p rest ih =>
    by_cases hp : ((p.1 : ℚ) ≤ t)
    · constructor
      · intro hcon
        rcases hq : specLastWrite t rest with _ | q
        · rw [specLastWrite_cons_le_none t p rest hp hq] at hcon
          exact Option.noConfusion hcon
        · rw [specLastWrite_cons_le_some t p rest q hp hq] at hcon
          by_cases hle : p.1 ≤ q.1
          · rw [if_pos hle] at hcon; exact Option.noConfusion hcon
          · rw [if_neg hle] at hcon; exact Option.noConfusion hcon
      · intro hall
        exact absurd (hall p (by simp)) (not_lt.mpr hp)
    · rw [specLastWrite_cons_gt t p rest hp, ih]
      constructor
      · intro hall x hx
        rcases List.mem_cons.mp hx with hx1 | hx1
        · rw [hx1]; exact not_le.mp hp
        · exact hall x hx1
      · intro hall x hx
        exact hall x (List.mem_cons_of_mem p hx)

theorem specLastWrite_some_char (t : ℚ) :
    ∀ (M : List (Int × ℚ)) (r : Int × ℚ), specLastWrite t M = some r →
      r ∈ M ∧ (r.1 : ℚ) ≤ t ∧ ∀ q ∈ M, (q.1 : ℚ) ≤ t → q.1 ≤ r.1 := by
  intro M
  induction M with
  | nil => intro r hr; exact Option.noConfusion hr
  | cons p rest ih =>
    intro r hr
    by_cases hp : ((p.1 : ℚ) ≤ t)
    · rcases hq : specLastWrite t rest with _ | q
      · rw [specLastWrite_cons_le_none t p rest hp hq] at hr
        obtain rfl : p = r := Option.some.inj hr
        refine ⟨by simp, hp, ?_⟩
        intro x hx hxt
        rcases List.mem_cons.mp hx with hx1 | hx1
        · rw [hx1]
        · exact absurd hxt (not_le.mpr ((specLastWrite_none_iff t rest).mp hq x hx1))
      · rw [specLastWrite_cons_le_some t p rest q hp hq] at hr
        obtain ⟨hqm, hqt, hqmax⟩ := ih q hq
        by_cases hle : p.1 ≤ q.1
        · rw [if_pos hle] at hr
          obtain rfl : q = r := Option.some.inj hr
          refine ⟨List.mem_cons_of_mem p hqm, hqt, ?_⟩
          intro x hx hxt
          rcases List.mem_cons.mp hx with hx1 | hx1
          · rw [hx1]; exact hle
          · exact hqmax x hx1 hxt
        · rw [if_neg hle] at hr
          obtain rfl : p = r := Option.some.inj hr
          refine ⟨by simp, hp, ?_⟩
          intro x hx hxt
          rcases List.mem_cons.mp hx with hx1 | hx1
          · rw [hx1]
          · exact le_trans (hqmax x hx1 hxt) (le_of_lt (not_le.mp hle))
    · rw [specLastWrite_cons_gt t p rest hp] at hr
      obtain ⟨hm, hrt, hmax⟩ := ih r hr
      refine ⟨List.mem_cons_of_mem p hm, hrt, ?_⟩
      intro x hx hxt
      rcases List.mem_cons.mp hx with hx1 | hx1
      · exact absurd hxt (by rw [hx1]; exact hp)
      · exact hmax x hx1 hxt

theorem nearestPrev_sorted_eq (t : ℚ) :
    ∀ M, List.Pairwise serLe M →
      nearestPrev t M = (specLastWrite t M).map Prod.snd := by
  intro M
  induction M with
  | nil => intro _; rfl
  | cons p rest ih =>
    intro hs
    obtain ⟨hhead, htail⟩ := List.pairwise_cons.mp hs
    by_cases hp : ((p.1 : ℚ) ≤ t)
    · rcases hq : specLastWrite t rest with _ | q
      · have hnp : nearestPrev t rest = none := by
          rw [ih htail, hq]; rfl
        rw [nearestPrev_cons_none t p rest hp hnp,
          specLastWrite_cons_le_none t p rest hp hq]
        rfl
      · have hnp : nearestPrev t rest = some q.2 := by
          rw [ih htail, hq]; rfl
        have hmem := (specLastWrite_some_char t rest q hq).1
        have hle : p.1 ≤ q.1 := hhead q hmem
        rw [nearestPrev_cons_some t p rest q.2 hp hnp,
          specLastWrite_cons_le_some t p rest q hp hq, if_pos hle]
        rfl
    · have hnone : specLastWrite t rest = none := by
        rw [specLastWrite_none_iff t rest]
        intro x hx
        have hle : p.1 ≤ x.1 := hhead x hx
        have hc : (p.1 : ℚ) ≤ (x.1 : ℚ) := by exact_mod_cast hle
        exact lt_of_lt_of_le (not_le.mp hp) hc
      rw [nearestPrev_cons_gt t p rest hp, specLastWrite_cons_gt t p rest hp, hnone]
      rfl

theorem nearestPrev_dedup (t : ℚ) :
    ∀ M, nearestPrev t (dedupKeepLast M) = nearestPrev t M := by
  intro M
  induction M with
  | nil => rfl
  | cons p M ih =>
    rcases M with _ | ⟨q, rest⟩
    · rfl
    · rw [dedupKeepLast]
      by_cases h : p.1 = q.1
      · rw [if_pos h, ih]
        have hpq : (p.1 : ℚ) = (q.1 : ℚ) := by exact_mod_cast h
        by_cases ht : ((p.1 : ℚ) ≤ t)
        · have ht2 : ((q.1 : ℚ) ≤ t) := hpq ▸ ht
          rcases hr : nearestPrev t rest with _ | w
          · rw [nearestPrev_cons_none t q rest ht2 hr,
              nearestPrev_cons_some t p (q :: rest) q.2 ht
                (nearestPrev_cons_none t q rest ht2 hr)]
          · rw [nearestPrev_cons_some t q rest w ht2 hr,
              nearestPrev_cons_some t p (q :: rest) w ht
                (nearestPrev_cons_some t q rest w ht2 hr)]
        · have ht2 : ¬((q.1 : ℚ) ≤ t) := hpq ▸ ht
          rw [nearestPrev_cons_gt t q rest ht2, nearestPrev_cons_gt t p (q :: rest) ht]
      · rw [if_neg h]
        by_cases ht : ((p.1 : ℚ) ≤ t)
        · rcases hr : nearestPrev t (q :: rest) with _ | w
          · rw [nearestPrev_cons_none t p _ ht (by rw [ih]; exact hr),
              nearestPrev_cons_none t p _ ht hr]
          · rw [nearestPrev_cons_some t p _ w ht (by rw [ih]; exact hr),
              nearestPrev_cons_some t p _ w ht hr]
        · rw [nearestPrev_cons_gt t p _ ht, nearestPrev_cons_gt t p _ ht]

theorem dedup_head_key : ∀ (p : Int × ℚ) (M : List (Int × ℚ)),
    ∃ p' rest', dedupKeepLast (p :: M) = p' :: rest' ∧ p'.1 = p.1 := by
  intro p M
  induction M generalizing p with
  | nil => exact ⟨p, [], rfl, rfl⟩
  | cons q rest ih =>
    rw [dedupKeepLast]
    by_cases h : p.1 = q.1
    · rw [if_pos h]
      obtain ⟨p', r', he, hk⟩ := ih q
      exact ⟨p', r', he, by rw [hk, h]⟩
    · rw [if_neg h]
      exact ⟨p, dedupKeepLast (q :: rest), rfl, rfl⟩

theorem nearestPrev_buildSeries (t : ℚ) (L : List (Int × ℚ)) :
    nearestPrev t (buildSeries L) = (specLastWrite t L).map Prod.snd := by
  calc nearestPrev t (buildSeries L)
      = nearestPrev t (List.insertionSort serLe L) := nearestPrev_dedup t _
    _ = (specLastWrite t (List.insertionSort serLe L)).map Prod.snd :=
        nearestPrev_sorted_eq t _ (List.sorted_insertionSort serLe L)
    _ = (specLastWrite t L).map Prod.snd := by rw [specLastWrite_insertionSort]

theorem pairObs_filter (start : Int) :
    ∀ (l : List (OscParamInfo × ℚ)) (acc : List (String × Int × ℚ)),
      l.foldl (fun acc2 ov => if ov.1.is_hardware then acc2
          else acc2 ++ ov.1.signals.map (fun x => (x, start, ov.2))) acc =
        (l.filter fun ov => ¬ ov.1.is_hardware).foldl
          (fun acc2 ov => if ov.1.is_hardware then acc2
            else acc2 ++ ov.1.signals.map (fun x => (x, start, ov.2))) acc := by
  intro l
  induction l with
  | nil => intro acc; rfl
  | cons ov l ih =>
    intro acc
    by_cases h : ov.1.is_hardware
    · rw [List.foldl_cons, if_pos h, List.filter_cons, if_neg (by simp [h])]
      exact ih acc
    · rw [List.foldl_cons, if_neg h, List.filter_cons, if_pos (by simp [h]),
        List.foldl_cons, if_neg h]
      exact ih _

/-- C6: for a signal with recorded observations in the artifact extracted from
an IR tree, `freq_at` strictly before every recorded timestamp returns `none`
(no exception); at or after some recorded timestamp it returns exactly the
value of the last write at the nearest recorded timestamp preceding-or-equal to
the query time (`specLastWrite`, written from the claim's words, whose result
is characterised as an entry of the observation list with maximal key among
those ≤ the query time, later writes winning ties); and the extraction records
exactly the non-hardware observations: deleting the hardware
(oscillator, value) pairs of a frequency-defining node leaves its recorded
observations unchanged. -/
theorem C6_freq_at_round_trip (tree : IRNode) (s : String) (t : ℚ) :
    (obsOf tree s ≠ [] →
      ((∀ q ∈ obsOf tree s, t < (q.1 : ℚ)) → freq_at tree s t = .ok none) ∧
      ((∃ q ∈ obsOf tree s, (q.1 : ℚ) ≤ t) →
        freq_at tree s t = .ok ((specLastWrite t (obsOf tree s)).map Prod.snd) ∧
        ∃ r, specLastWrite t (obsOf tree s) = some r ∧ r ∈ obsOf tree s ∧
          (r.1 : ℚ) ≤ t ∧ ∀ q ∈ obsOf tree s, (q.1 : ℚ) ≤ t → q.1 ≤ r.1)) ∧
    (∀ (oscs : List OscParamInfo) (vals : List ℚ) (start : Int)
        (acc : List (String × Int × ℚ)),
      pairObs oscs vals start acc =
        pairObs (stripHwPairs oscs vals).1 (stripHwPairs oscs vals).2 start acc) := by
  constructor
  · intro hne
    have hperm := List.perm_insertionSort serLe (obsOf tree s)
    have hSne : List.insertionSort serLe (obsOf tree s) ≠ [] := by
      intro hcon
      exact hne (List.eq_nil_of_length_eq_zero (by rw [← hperm.length_eq, hcon]; rfl))
    obtain ⟨hd, tl, hS⟩ := List.exists_cons_of_ne_nil hSne
    obtain ⟨p', rest', hD, hk⟩ := dedup_head_key hd tl
    have hbuild : buildSeries (obsOf tree s) = p' :: rest' := by
      rw [buildSeries, hS, hD]
    have hhd_mem : hd ∈ obsOf tree s := hperm.mem_iff.mp (by rw [hS]; simp)
    have hSorted := List.sorted_insertionSort serLe (obsOf tree s)
    rw [hS] at hSorted
    constructor
    · intro hall
      have hlt : t < (p'.1 : ℚ) := by
        have := hall hd hhd_mem
        have hc : (p'.1 : ℚ) = (hd.1 : ℚ) := by exact_mod_cast hk
        rw [hc]
        exact this
      simp only [freq_at, hbuild]
      rw [if_pos hlt]
    · intro hex
      obtain ⟨q, hqm, hqt⟩ := hex
      have hq_in_S : q ∈ hd :: tl := by
        rw [← hS]
        exact hperm.mem_iff.mpr hqm
      have hd_le_q : hd.1 ≤ q.1 := by
        rcases List.mem_cons.mp hq_in_S with h1 | h1
        · rw [h1]
        · exact List.rel_of_sorted_cons hSorted q h1
      have hnlt : ¬(t < (p'.1 : ℚ)) := by
        rw [not_lt]
        have hc : (p'.1 : ℚ) ≤ (q.1 : ℚ) := by
          rw [show (p'.1 : ℚ) = (hd.1 : ℚ) by exact_mod_cast hk]
          exact_mod_cast hd_le_q
        exact le_trans hc hqt
      have hval : freq_at tree s t =
          .ok ((specLastWrite t (obsOf tree s)).map Prod.snd) := by
        simp only [freq_at, hbuild]
        rw [if_neg hnlt, ← hbuild, nearestPrev_buildSeries]
      refine ⟨hval, ?_⟩
      rcases hr : specLastWrite t (obsOf tree s) with _ | r
      · exact absurd hqt (not_le.mpr ((specLastWrite_none_iff t _).mp hr q hqm))
      · obtain ⟨h1, h2, h3⟩ := specLastWrite_some_char t _ r hr
        exact ⟨r, rfl, h1, h2, h3⟩
  · intro oscs vals start acc
    have hzip : (stripHwPairs oscs vals).1.zip (stripHwPairs oscs vals).2 =
        (oscs.zip vals).filter (fun ov => ¬ ov.1.is_hardware) := by
      unfold stripHwPairs
      exact List.zip_unzip _
    unfold pairObs
    rw [hzip]
    exact pairObs_filter start (oscs.zip vals) acc

theorem C6_witness :
    freq_at exTree "a" 1 = .ok ((specLastWrite 1 (obsOf exTree "a")).map Prod.snd) ∧
    ∃ r, specLastWrite 1 (obsOf exTree "a") = some r ∧ r ∈ obsOf exTree "a" ∧
      ((r.1 : ℚ)) ≤ 1 ∧ ∀ q ∈ obsOf exTree "a", (q.1 : ℚ) ≤ 1 → q.1 ≤ r.1 := by
  have hobs : obsOf exTree "a" = [(0, 5)] := by
    simp [obsOf, exTree, nodeObservations, pairObs, List.zip]
  have hne : obsOf exTree "a" ≠ [] := by rw [hobs]; simp
  have hex : ∃ q ∈ obsOf exTree "a", ((q.1 : ℚ)) ≤ 1 :=
    ⟨(0, 5), by rw [hobs]; simp, by norm_num⟩
  exact ((C6_freq_at_round_trip exTree "a" 1).1 hne).2 hex
